import Mathlib

set_option maxRecDepth 4000
set_option linter.unusedSectionVars false

/-
Verification of the Hiccup engine's core containers and memory substrate.

The development shallowly embeds the C++ sources:
  - `HashTable.h`  -> `Hiccup.HashTable` (open addressing, Empty/Deleted/Occupied
    buckets, linear probing, load-factor driven rehash);
  - `Array.h`      -> `Hiccup.Array` (growable contiguous sequence);
  - `String.h`     -> `Hiccup.String` (SSO string);
  - `Memory.cpp`   -> `Hiccup.Memory` (allocation facade and tracker).

Machine integers (`size_t`, `usize`, `uint64_t`) are embedded as `Nat`: no
arithmetic in the embedded code paths can overflow for the state spaces the
claims quantify over, and the sources rely on no wrap-around behaviour.
The single floating-point comparison, `(float64)size / (float64)capacity >=
0.75` in `HashTable::is_over_load_factor`, is embedded as the exact rational
comparison `3 * capacity <= 4 * size`: `0.75` is exactly representable in
binary64 and for `size, capacity < 2^52` the rounded quotient is `>= 0.75`
exactly when the true quotient is, so the two are equivalent on every state
reachable in this development.

Unbounded probe loops in the source (`find_first_unoccupied_index`,
`find_existing_index`, the scan in `find_index_of_first_unoccupied`) advance
by `+1 mod capacity`, hence revisit their starting bucket after `capacity`
steps and diverge if unsatisfied by then; they are embedded with `capacity`
units of fuel, `none` standing for divergence.  Undefined behaviour (a `% 0`,
an out-of-bounds store through the `(size_t)-1` sentinel, a failed
`HC_ASSERT`) is likewise embedded as `none`.
-/

namespace Hiccup

/-- Bucket states of the open-addressed table, `HashTable::BucketState`
(`Empty`, `Deleted`, `Occupied`), fused with the parallel key-value pair slot
`HashTable::KeyValue` that the occupied state owns. -/
inductive Bucket (κ ν : Type) where
  | empty : Bucket κ ν
  | deleted : Bucket κ ν
  | occupied (key : κ) (value : ν) : Bucket κ ν
  deriving DecidableEq

/-- Whether a bucket is in the `Occupied` state. -/
def Bucket.is_occupied {κ ν : Type} : Bucket κ ν → Bool
  | .occupied _ _ => true
  | _ => false

/-- The open-addressed hash table `HC::HashTable<KeyType, ValueType>`:
`buckets` fuses the `m_key_values` and `m_states` parallel arrays (their
common length is `m_capacity`), and `size` is `m_size`.  The `Hasher`
template parameter appears as an explicit `hash` argument to the operations
that probe. -/
structure HashTable (κ ν : Type) where
  buckets : List (Bucket κ ν)
  size : Nat
  deriving DecidableEq

namespace HashTable

variable {κ ν : Type} [DecidableEq κ]

/-- `m_capacity`: the common length of the pair array and the state array. -/
def capacity (t : HashTable κ ν) : Nat := t.buckets.length

/-- Reading `m_states[i]` / `m_key_values[i]` as one fused bucket. -/
def bucket_at (t : HashTable κ ν) (i : Nat) : Bucket κ ν := t.buckets.getD i .empty

/-- `HashTable::HashTable()`: null buffers, zero capacity and size. -/
def new_table : HashTable κ ν := { buckets := [], size := 0 }

/-- `HashTable::is_over_load_factor`: `(m_capacity == 0) ||
(get_load_factor() >= MaxLoadFactor)` with `MaxLoadFactor = 0.75`; the float
comparison is embedded exactly (see the header comment). -/
def is_over_load_factor (t : HashTable κ ν) : Bool :=
  (t.capacity == 0) || decide (3 * t.capacity ≤ 4 * t.size)

/-- `HashTable::calculate_growth()` (no-argument overload): `m_capacity * 2 + 2`. -/
def calculate_growth (t : HashTable κ ν) : Nat := t.capacity * 2 + 2

/-- `HashTable::required_capacity_for`: `(size_t)((float64_t)requiredSize /
MaxLoadFactor) + 1`, i.e. `⌊4·requiredSize / 3⌋ + 1` exactly. -/
def required_capacity_for (requiredSize : Nat) : Nat := 4 * requiredSize / 3 + 1

/-- Loop body of `HashTable::find`: probe from `idx`, return the occupied
bucket matching the key, stop on `Empty`, skip `Deleted`; at most
`m_capacity` iterations (the source loop counts `i < m_capacity`). -/
def find_loop (t : HashTable κ ν) (k : κ) : Nat → Nat → Option Nat
  | 0, _ => none
  | fuel+1, idx =>
    match t.bucket_at idx with
    | .occupied key _ =>
        if key = k then some idx else find_loop t k fuel ((idx + 1) % t.capacity)
    | .empty => none
    | .deleted => find_loop t k fuel ((idx + 1) % t.capacity)

/-- `HashTable::find`: the `EndOfTable` sentinel is embedded as `none`. -/
def find (hash : κ → Nat) (t : HashTable κ ν) (k : κ) : Option Nat :=
  if t.capacity = 0 then none
  else find_loop t k t.capacity (hash k % t.capacity)

/-- Loop body of `HashTable::find_first_unoccupied_index`: first bucket whose
state is not `Occupied`, probing cyclically.  The source loop is unbounded;
`capacity` fuel is exact (the probe is periodic), `none` embeds divergence. -/
def ffu_loop (t : HashTable κ ν) : Nat → Nat → Option Nat
  | 0, _ => none
  | fuel+1, idx =>
    if (t.bucket_at idx).is_occupied then ffu_loop t fuel ((idx + 1) % t.capacity)
    else some idx

/-- `HashTable::find_first_unoccupied_index`. -/
def find_first_unoccupied_index (t : HashTable κ ν) (i : Nat) : Option Nat :=
  ffu_loop t t.capacity i

/-- Loop body of `HashTable::find_existing_index`: probe until the occupied
bucket holding the key, skipping everything else; unbounded in the source,
`none` embeds divergence (key absent). -/
def fe_loop (t : HashTable κ ν) (k : κ) : Nat → Nat → Option Nat
  | 0, _ => none
  | fuel+1, idx =>
    match t.bucket_at idx with
    | .occupied key _ =>
        if key = k then some idx else fe_loop t k fuel ((idx + 1) % t.capacity)
    | _ => fe_loop t k fuel ((idx + 1) % t.capacity)

/-- `HashTable::find_existing_index`; `hash(key) % 0` is undefined behaviour,
embedded as `none`. -/
def find_existing_index (hash : κ → Nat) (t : HashTable κ ν) (k : κ) : Option Nat :=
  if t.capacity = 0 then none
  else fe_loop t k t.capacity (hash k % t.capacity)

/-- Loop body of `HashTable::find_index_of_first_unoccupied`: return the
occupied bucket matching the key if one is met, otherwise remember the first
non-occupied bucket (`firstIndex`), breaking at the first `Empty`; `first`
carries `firstIndex`, with `none` for `(size_t)-1`. -/
def fiofu_loop (t : HashTable κ ν) (k : κ) : Nat → Nat → Option Nat → Option Nat
  | 0, _, first => first
  | fuel+1, idx, first =>
    match t.bucket_at idx with
    | .occupied key _ =>
        if key = k then some idx
        else fiofu_loop t k fuel ((idx + 1) % t.capacity) first
    | .deleted =>
        fiofu_loop t k fuel ((idx + 1) % t.capacity) (first.orElse (fun _ => some idx))
    | .empty => some (first.getD idx)

/-- `HashTable::find_index_of_first_unoccupied`; the `(size_t)-1` sentinel
(and the `% 0` of an empty table, undefined behaviour) embed as `none`. -/
def find_index_of_first_unoccupied (hash : κ → Nat) (t : HashTable κ ν) (k : κ) :
    Option Nat :=
  if t.capacity = 0 then none
  else fiofu_loop t k t.capacity (hash k % t.capacity) none

/-- The placement block shared by the insertion paths: placement-new the pair
into bucket `i`, mark it `Occupied`, `m_size++`. -/
def place (t : HashTable κ ν) (i : Nat) (k : κ) (v : ν) : HashTable κ ν :=
  { buckets := t.buckets.set i (.occupied k v), size := t.size + 1 }

/-- `HashTable::internal_insert`: place at the first unoccupied bucket of the
key's probe sequence. -/
def internal_insert (hash : κ → Nat) (t : HashTable κ ν) (k : κ) (v : ν) :
    Option (HashTable κ ν) :=
  (t.find_first_unoccupied_index (hash k % t.capacity)).map (fun i => t.place i k v)

/-- The key-value pair an occupied bucket stores. -/
def entry_of : Bucket κ ν → Option (κ × ν)
  | .occupied k v => some (k, v)
  | _ => none

/-- The occupied key-value pairs, in bucket order (the iteration order of
`re_allocate`, the copy operations and `for_each`). -/
def occ_entries (t : HashTable κ ν) : List (κ × ν) :=
  t.buckets.filterMap entry_of

/-- `HashTable::re_allocate`: allocate `newCapacity` buckets, memset the
states to `Empty`, reset `m_size`, then `internal_insert` every occupied
entry of the old buffer in index order. -/
def re_allocate (hash : κ → Nat) (t : HashTable κ ν) (newCapacity : Nat) :
    Option (HashTable κ ν) :=
  t.occ_entries.foldlM (fun acc kv => internal_insert hash acc kv.1 kv.2)
    { buckets := List.replicate newCapacity .empty, size := 0 }

/-- `HashTable::insert` (the `HC_ENABLE_ASSERTS` build): rehash when over the
load factor, find the slot, `HC_ASSERT` that the key is not already occupied
(assert failure embeds as `none`), then place. -/
def insert (hash : κ → Nat) (t : HashTable κ ν) (k : κ) (v : ν) :
    Option (HashTable κ ν) :=
  (if t.is_over_load_factor then t.re_allocate hash t.calculate_growth
   else some t).bind
    (fun t1 => (t1.find_index_of_first_unoccupied hash k).bind
      (fun i =>
        match t1.bucket_at i with
        | .occupied _ _ => none
        | _ => some (t1.place i k v)))

/-- `HashTable::operator[]` (find-or-insert): look up the slot, return the
table unchanged when the key exists, otherwise default-construct the value
(`d` embeds `ValueType()`) into the slot. -/
def bracket (hash : κ → Nat) (t : HashTable κ ν) (k : κ) (d : ν) :
    Option (HashTable κ ν) :=
  (t.find_index_of_first_unoccupied hash k).bind
    (fun i =>
      match t.bucket_at i with
      | .occupied _ _ => some t
      | _ => some (t.place i k d))

/-- `HashTable::remove`: destroy the pair found by `find_existing_index`, set
its state to `Deleted`, `m_size--`. -/
def remove (hash : κ → Nat) (t : HashTable κ ν) (k : κ) : Option (HashTable κ ν) :=
  (t.find_existing_index hash k).map
    (fun i => { buckets := t.buckets.set i .deleted, size := t.size - 1 })

/-- `HashTable::remove_index`: `HC_ASSERT` the bucket is occupied (failure
embeds as `none`), destroy it, mark `Deleted`, `m_size--`. -/
def remove_index (t : HashTable κ ν) (i : Nat) : Option (HashTable κ ν) :=
  match t.bucket_at i with
  | .occupied _ _ =>
      some { buckets := t.buckets.set i .deleted, size := t.size - 1 }
  | _ => none

/-- `HashTable::at_index`: `HC_DASSERT` the bucket is occupied, return its
value. -/
def at_index (t : HashTable κ ν) (i : Nat) : Option ν :=
  match t.bucket_at i with
  | .occupied _ v => some v
  | _ => none

/-- `HashTable::clear`: destroy every occupied pair, memset every state to
`Empty`, `m_size = 0`; capacity is kept. -/
def clear (t : HashTable κ ν) : HashTable κ ν :=
  { buckets := List.replicate t.capacity .empty, size := 0 }

/-- Key `k` is present: some bucket within the capacity is occupied by it. -/
def key_present (t : HashTable κ ν) (k : κ) : Prop :=
  ∃ i, i < t.capacity ∧ ∃ v, t.bucket_at i = .occupied k v

/-- The probe invariant of the specification for key `k`: the linear probe
starting at `hash k % capacity` and advancing by one modulo the capacity
visits a bucket occupied by `k` before encountering any `Empty` bucket. -/
def probe_ok (hash : κ → Nat) (t : HashTable κ ν) (k : κ) : Prop :=
  ∃ j, j < t.capacity ∧
    (∃ v, t.bucket_at ((hash k % t.capacity + j) % t.capacity) = .occupied k v) ∧
    ∀ j2, j2 < j → t.bucket_at ((hash k % t.capacity + j2) % t.capacity) ≠ .empty

/-- Every key occupies at most one bucket. -/
def unique_keys (t : HashTable κ ν) : Prop :=
  ∀ k i j, i < t.capacity → j < t.capacity →
    (∃ v, t.bucket_at i = .occupied k v) → (∃ v, t.bucket_at j = .occupied k v) →
    i = j

/-- Measure of one bucket: `g` of the stored value on occupied buckets,
zero elsewhere. -/
def bval (g : ν → Nat) : Bucket κ ν → Nat
  | .occupied _ v => g v
  | _ => 0

/-- Sum, over the occupied buckets, of a measure of the stored value. -/
def sum_val (g : ν → Nat) (t : HashTable κ ν) : Nat :=
  (t.buckets.map (bval g)).sum

/-- Number of occupied buckets. -/
def occ_count (t : HashTable κ ν) : Nat := sum_val (fun _ => 1) t

/-- The states reachable from a default-constructed table by successful
`insert`, `operator[]`, `remove` and `clear` calls. -/
inductive reach (hash : κ → Nat) : HashTable κ ν → Prop where
  | init : reach hash new_table
  | insert_step {t t2 : HashTable κ ν} {k : κ} {v : ν} :
      reach hash t → insert hash t k v = some t2 → reach hash t2
  | bracket_step {t t2 : HashTable κ ν} {k : κ} {d : ν} :
      reach hash t → bracket hash t k d = some t2 → reach hash t2
  | remove_step {t t2 : HashTable κ ν} {k : κ} :
      reach hash t → remove hash t k = some t2 → reach hash t2
  | clear_step {t : HashTable κ ν} : reach hash t → reach hash t.clear

/-- The list of bucket indices a probe loop starting at `idx` visits in
`fuel` iterations: each step advances by one modulo the capacity. -/
def probe_seq (t : HashTable κ ν) : Nat → Nat → List Nat
  | _, 0 => []
  | idx, fuel+1 => idx :: probe_seq t ((idx + 1) % t.capacity) fuel

/-- `find_loop` rephrased over an explicit list of visited indices. -/
def find_list (t : HashTable κ ν) (k : κ) : List Nat → Option Nat
  | [] => none
  | i :: rest =>
    match t.bucket_at i with
    | .occupied key _ => if key = k then some i else find_list t k rest
    | .empty => none
    | .deleted => find_list t k rest

/-- `ffu_loop` rephrased over an explicit list of visited indices. -/
def ffu_list (t : HashTable κ ν) : List Nat → Option Nat
  | [] => none
  | i :: rest => if (t.bucket_at i).is_occupied then ffu_list t rest else some i

/-- `fe_loop` rephrased over an explicit list of visited indices. -/
def fe_list (t : HashTable κ ν) (k : κ) : List Nat → Option Nat
  | [] => none
  | i :: rest =>
    match t.bucket_at i with
    | .occupied key _ => if key = k then some i else fe_list t k rest
    | _ => fe_list t k rest

/-- `fiofu_loop` rephrased over an explicit list of visited indices. -/
def fiofu_list (t : HashTable κ ν) (k : κ) : List Nat → Option Nat → Option Nat
  | [], first => first
  | i :: rest, first =>
    match t.bucket_at i with
    | .occupied key _ => if key = k then some i else fiofu_list t k rest first
    | .deleted => fiofu_list t k rest (first.orElse (fun _ => some i))
    | .empty => some (first.getD i)

theorem find_loop_eq (t : HashTable κ ν) (k : κ) :
    ∀ fuel idx, find_loop t k fuel idx = find_list t k (probe_seq t idx fuel) := by
  intro fuel
  induction fuel with
  | zero => intro idx; rfl
  | succ n ih =>
    intro idx
    simp only [find_loop, probe_seq, find_list]
    cases t.bucket_at idx with
    | occupied key v =>
      by_cases hk : key = k <;> simp [hk, ih]
    | empty => rfl
    | deleted => exact ih _

theorem ffu_loop_eq (t : HashTable κ ν) :
    ∀ fuel idx, ffu_loop t fuel idx = ffu_list t (probe_seq t idx fuel) := by
  intro fuel
  induction fuel with
  | zero => intro idx; rfl
  | succ n ih =>
    intro idx
    simp only [ffu_loop, probe_seq, ffu_list]
    by_cases h : (t.bucket_at idx).is_occupied <;> simp [h, ih]

theorem fe_loop_eq (t : HashTable κ ν) (k : κ) :
    ∀ fuel idx, fe_loop t k fuel idx = fe_list t k (probe_seq t idx fuel) := by
  intro fuel
  induction fuel with
  | zero => intro idx; rfl
  | succ n ih =>
    intro idx
    simp only [fe_loop, probe_seq, fe_list]
    cases t.bucket_at idx with
    | occupied key v =>
      by_cases hk : key = k <;> simp [hk, ih]
    | empty => exact ih _
    | deleted => exact ih _

theorem fiofu_loop_eq (t : HashTable κ ν) (k : κ) :
    ∀ fuel idx first,
      fiofu_loop t k fuel idx first = fiofu_list t k (probe_seq t idx fuel) first := by
  intro fuel
  induction fuel with
  | zero => intro idx first; rfl
  | succ n ih =>
    intro idx first
    simp only [fiofu_loop, probe_seq, fiofu_list]
    cases t.bucket_at idx with
    | occupied key v =>
      by_cases hk : key = k <;> simp [hk, ih]
    | empty => rfl
    | deleted => exact ih _ _

theorem probe_seq_eq (t : HashTable κ ν) :
    ∀ fuel h, h < t.capacity →
      probe_seq t h fuel = (List.range fuel).map (fun j => (h + j) % t.capacity) := by
  intro fuel
  induction fuel with
  | zero => intro h _; rfl
  | succ n ih =>
    intro h hh
    have hcap : 0 < t.capacity := Nat.lt_of_le_of_lt (Nat.zero_le _) hh
    rw [List.range_succ_eq_map]
    simp only [probe_seq, List.map_cons, List.map_map]
    congr 1
    · simp [Nat.mod_eq_of_lt hh]
    · rw [ih ((h + 1) % t.capacity) (Nat.mod_lt _ hcap)]
      apply List.map_congr_left
      intro j _
      show ((h + 1) % t.capacity + j) % t.capacity = (h + Nat.succ j) % t.capacity
      rw [Nat.mod_add_mod]
      congr 1
      omega

theorem probe_seq_length (t : HashTable κ ν) :
    ∀ fuel idx, (probe_seq t idx fuel).length = fuel := by
  intro fuel
  induction fuel with
  | zero => intro idx; rfl
  | succ n ih => intro idx; simp [probe_seq, ih]

theorem probe_seq_getD (t : HashTable κ ν) {h j fuel : Nat}
    (hh : h < t.capacity) (hj : j < fuel) :
    (probe_seq t h fuel).getD j 0 = (h + j) % t.capacity := by
  rw [probe_seq_eq t fuel h hh]
  simp [List.getD_eq_getElem?_getD, List.getElem?_map, List.getElem?_range hj]

theorem probe_seq_mem (t : HashTable κ ν) {h i fuel : Nat}
    (hh : h < t.capacity) (hi : i ∈ probe_seq t h fuel) : i < t.capacity := by
  have hcap : 0 < t.capacity := Nat.lt_of_le_of_lt (Nat.zero_le _) hh
  rw [probe_seq_eq t fuel h hh] at hi
  rcases List.mem_map.mp hi with ⟨j, _, rfl⟩
  exact Nat.mod_lt _ hcap

theorem probe_seq_covers (t : HashTable κ ν) {h i : Nat}
    (hh : h < t.capacity) (hi : i < t.capacity) :
    i ∈ probe_seq t h t.capacity := by
  have hcap : 0 < t.capacity := Nat.lt_of_le_of_lt (Nat.zero_le _) hh
  rw [probe_seq_eq t t.capacity h hh]
  refine List.mem_map.mpr ⟨(t.capacity + i - h) % t.capacity, List.mem_range.mpr (Nat.mod_lt _ hcap), ?_⟩
  rw [Nat.add_mod_mod]
  have hle : h ≤ t.capacity + i := by omega
  have : h + (t.capacity + i - h) = t.capacity + i := by omega
  rw [this, Nat.add_mod_left, Nat.mod_eq_of_lt hi]

theorem getD_set_self_nat {α : Type} (l : List α) (i : Nat) (h : i < l.length) (b d : α) :
    (l.set i b).getD i d = b := by
  simp [List.getD_eq_getElem?_getD, List.getElem?_set_self h]

theorem getD_set_ne_nat {α : Type} (l : List α) {i j : Nat} (h : i ≠ j) (b d : α) :
    (l.set i b).getD j d = l.getD j d := by
  simp [List.getD_eq_getElem?_getD, List.getElem?_set_ne h]

theorem sum_map_set {α : Type} (f : α → Nat) :
    ∀ (l : List α) (i : Nat), i < l.length → ∀ (b d : α),
      ((l.set i b).map f).sum + f (l.getD i d) = (l.map f).sum + f b := by
  intro l
  induction l with
  | nil => intro i h; simp at h
  | cons x xs ih =>
    intro i h b d
    cases i with
    | zero => simp [List.set]; omega
    | succ n =>
      have hn : n < xs.length := by simpa using h
      have := ih n hn b d
      simp only [List.set, List.map_cons, List.sum_cons, List.getD_cons_succ]
      omega

theorem find_list_success (t : HashTable κ ν) (k : κ) :
    ∀ (L : List Nat) (j : Nat), j < L.length →
      (∃ v, t.bucket_at (L.getD j 0) = .occupied k v) →
      (∀ j2, j2 < j → t.bucket_at (L.getD j2 0) ≠ .empty) →
      ∃ i, find_list t k L = some i ∧ ∃ v, t.bucket_at i = .occupied k v := by
  intro L
  induction L with
  | nil => intro j hj; simp at hj
  | cons x rest ih =>
    intro j hj hocc hpre
    cases j with
    | zero =>
      rcases hocc with ⟨v, hv⟩
      simp only [List.getD_cons_zero] at hv
      refine ⟨x, ?_, v, hv⟩
      simp [find_list, hv]
    | succ j0 =>
      have hx : t.bucket_at x ≠ .empty := by
        have := hpre 0 (Nat.succ_pos _)
        simpa using this
      have hj0 : j0 < rest.length := by simpa using hj
      have hocc0 : ∃ v, t.bucket_at (rest.getD j0 0) = .occupied k v := by
        simpa using hocc
      have hpre0 : ∀ j2, j2 < j0 → t.bucket_at (rest.getD j2 0) ≠ .empty := by
        intro j2 hj2
        have := hpre (j2 + 1) (by omega)
        simpa using this
      rcases ih j0 hj0 hocc0 hpre0 with ⟨i, hi, v, hv⟩
      cases hb : t.bucket_at x with
      | occupied key v2 =>
        by_cases hk : key = k
        · exact ⟨x, by simp [find_list, hb, hk], v2, by rw [hb, hk]⟩
        · exact ⟨i, by simp [find_list, hb, hk, hi], v, hv⟩
      | empty => exact absurd hb hx
      | deleted => exact ⟨i, by simp [find_list, hb, hi], v, hv⟩

theorem fiofu_list_nonocc (t : HashTable κ ν) (k : κ) :
    ∀ (L : List Nat) (first : Option Nat) (i : Nat),
      fiofu_list t k L first = some i →
      (t.bucket_at i).is_occupied = false →
      first = some i ∨
        (first = none ∧ ∃ j, j < L.length ∧ i = L.getD j 0 ∧
          ∀ j2, j2 < j → (t.bucket_at (L.getD j2 0)).is_occupied = true) := by
  intro L
  induction L with
  | nil => intro first i h _; exact Or.inl h
  | cons x rest ih =>
    intro first i hres hno
    cases hb : t.bucket_at x with
    | occupied key v =>
      by_cases hk : key = k
      · simp only [fiofu_list, hb, hk, if_pos rfl] at hres
        cases hres
        rw [hb] at hno
        simp [Bucket.is_occupied] at hno
      · simp only [fiofu_list, hb, hk, if_neg hk] at hres
        rcases ih first i hres hno with h | ⟨hf, j, hj, hi, hpre⟩
        · exact Or.inl h
        · refine Or.inr ⟨hf, j + 1, by simpa using hj, by simpa using hi, ?_⟩
          intro j2 hj2
          cases j2 with
          | zero => simpa [hb, Bucket.is_occupied] using rfl
          | succ m =>
            have := hpre m (by omega)
            simpa using this
    | deleted =>
      simp only [fiofu_list, hb] at hres
      rcases ih _ i hres hno with h | ⟨hf, _, _, _, _⟩
      · cases hfirst : first with
        | some f =>
          rw [hfirst] at h
          simp [Option.orElse] at h
          exact Or.inl (by rw [h])
        | none =>
          rw [hfirst] at h
          simp [Option.orElse] at h
          refine Or.inr ⟨rfl, 0, by simp, by simp [h], by omega⟩
      · cases hfirst : first with
        | some f => rw [hfirst] at hf; simp [Option.orElse] at hf
        | none => rw [hfirst] at hf; simp [Option.orElse] at hf
    | empty =>
      simp only [fiofu_list, hb] at hres
      cases hfirst : first with
      | some f =>
        rw [hfirst] at hres
        simp at hres
        exact Or.inl (by rw [hres])
      | none =>
        rw [hfirst] at hres
        simp at hres
        refine Or.inr ⟨rfl, 0, by simp, by simp [hres], by omega⟩

theorem fiofu_list_occ (t : HashTable κ ν) (k : κ) :
    ∀ (L : List Nat) (first : Option Nat) (i : Nat),
      (∀ f, first = some f → (t.bucket_at f).is_occupied = false) →
      fiofu_list t k L first = some i →
      ∀ key v, t.bucket_at i = .occupied key v → key = k := by
  intro L
  induction L with
  | nil =>
    intro first i hfirst hres key v hocc
    have := hfirst i hres
    rw [hocc] at this
    simp [Bucket.is_occupied] at this
  | cons x rest ih =>
    intro first i hfirst hres key v hocc
    cases hb : t.bucket_at x with
    | occupied key2 v2 =>
      by_cases hk : key2 = k
      · simp only [fiofu_list, hb, if_pos hk] at hres
        cases hres
        rw [hb] at hocc
        cases hocc
        exact hk
      · simp only [fiofu_list, hb, if_neg hk] at hres
        exact ih first i hfirst hres key v hocc
    | deleted =>
      simp only [fiofu_list, hb] at hres
      refine ih _ i ?_ hres key v hocc
      intro f hf
      cases hfirst2 : first with
      | some f0 =>
        rw [hfirst2] at hf
        simp [Option.orElse] at hf
        exact hf ▸ hfirst f0 hfirst2
      | none =>
        rw [hfirst2] at hf
        simp [Option.orElse] at hf
        rw [← hf, hb]
        rfl
    | empty =>
      simp only [fiofu_list, hb] at hres
      cases hfirst2 : first with
      | some f =>
        rw [hfirst2] at hres
        simp at hres
        have := hfirst f hfirst2
        rw [← hres] at hocc
        rw [hocc] at this
        simp [Bucket.is_occupied] at this
      | none =>
        rw [hfirst2] at hres
        simp at hres
        rw [← hres, hb] at hocc
        cases hocc

theorem fiofu_list_isSome (t : HashTable κ ν) (k : κ) :
    ∀ (L : List Nat) (first : Option Nat),
      (first.isSome ∨ ∃ x ∈ L, (t.bucket_at x).is_occupied = false) →
      (fiofu_list t k L first).isSome := by
  intro L
  induction L with
  | nil =>
    intro first h
    rcases h with h | ⟨x, hx, _⟩
    · exact h
    · simp at hx
  | cons x rest ih =>
    intro first h
    cases hb : t.bucket_at x with
    | occupied key v =>
      by_cases hk : key = k
      · simp [fiofu_list, hb, hk]
      · simp only [fiofu_list, hb, if_neg hk]
        refine ih first ?_
        rcases h with h | ⟨x0, hx0, hocc0⟩
        · exact Or.inl h
        · rcases List.mem_cons.mp hx0 with rfl | hmem
          · rw [hb] at hocc0; simp [Bucket.is_occupied] at hocc0
          · exact Or.inr ⟨x0, hmem, hocc0⟩
    | deleted =>
      simp only [fiofu_list, hb]
      refine ih _ (Or.inl ?_)
      cases first <;> simp [Option.orElse]
    | empty => simp [fiofu_list, hb]

theorem fiofu_list_mem (t : HashTable κ ν) (k : κ) :
    ∀ (L : List Nat) (first : Option Nat) (i : Nat),
      fiofu_list t k L first = some i → i ∈ L ∨ first = some i := by
  intro L
  induction L with
  | nil => intro first i h; exact Or.inr h
  | cons x rest ih =>
    intro first i hres
    cases hb : t.bucket_at x with
    | occupied key v =>
      by_cases hk : key = k
      · simp only [fiofu_list, hb, if_pos hk] at hres
        cases hres
        exact Or.inl (List.mem_cons_self _ _)
      · simp only [fiofu_list, hb, if_neg hk] at hres
        rcases ih first i hres with h | h
        · exact Or.inl (List.mem_cons_of_mem _ h)
        · exact Or.inr h
    | deleted =>
      simp only [fiofu_list, hb] at hres
      rcases ih _ i hres with h | h
      · exact Or.inl (List.mem_cons_of_mem _ h)
      · cases hfirst : first with
        | some f =>
          rw [hfirst] at h
          simp [Option.orElse] at h
          exact Or.inr (by rw [h])
        | none =>
          rw [hfirst] at h
          simp [Option.orElse] at h
          exact Or.inl (by rw [← h]; exact List.mem_cons_self _ _)
    | empty =>
      simp only [fiofu_list, hb] at hres
      cases hfirst : first with
      | some f =>
        rw [hfirst] at hres
        simp at hres
        exact Or.inr (by rw [hres])
      | none =>
        rw [hfirst] at hres
        simp at hres
        exact Or.inl (by rw [← hres]; exact List.mem_cons_self _ _)

theorem fiofu_list_match (t : HashTable κ ν) (k : κ) :
    ∀ (L : List Nat) (j : Nat) (first : Option Nat), j < L.length →
      (∃ v, t.bucket_at (L.getD j 0) = .occupied k v) →
      (∀ j2, j2 < j → t.bucket_at (L.getD j2 0) ≠ .empty) →
      ∃ i, fiofu_list t k L first = some i ∧ ∃ v, t.bucket_at i = .occupied k v := by
  intro L
  induction L with
  | nil => intro j first hj; simp at hj
  | cons x rest ih =>
    intro j first hj hocc hpre
    cases j with
    | zero =>
      rcases hocc with ⟨v, hv⟩
      simp only [List.getD_cons_zero] at hv
      exact ⟨x, by simp [fiofu_list, hv], v, hv⟩
    | succ j0 =>
      have hx : t.bucket_at x ≠ .empty := by
        have := hpre 0 (Nat.succ_pos _)
        simpa using this
      have hj0 : j0 < rest.length := by simpa using hj
      have hocc0 : ∃ v, t.bucket_at (rest.getD j0 0) = .occupied k v := by
        simpa using hocc
      have hpre0 : ∀ j2, j2 < j0 → t.bucket_at (rest.getD j2 0) ≠ .empty := by
        intro j2 hj2
        have := hpre (j2 + 1) (by omega)
        simpa using this
      cases hb : t.bucket_at x with
      | occupied key v2 =>
        by_cases hk : key = k
        · exact ⟨x, by simp [fiofu_list, hb, hk], v2, by rw [hb, hk]⟩
        · rcases ih j0 first hj0 hocc0 hpre0 with ⟨i, hi, hv⟩
          exact ⟨i, by simp [fiofu_list, hb, hk, hi], hv⟩
      | empty => exact absurd hb hx
      | deleted =>
        rcases ih j0 (first.orElse (fun _ => some x)) hj0 hocc0 hpre0 with ⟨i, hi, hv⟩
        exact ⟨i, by simp [fiofu_list, hb, hi], hv⟩

theorem ffu_list_spec (t : HashTable κ ν) :
    ∀ (L : List Nat) (i : Nat),
      ffu_list t L = some i →
      (t.bucket_at i).is_occupied = false ∧
        ∃ j, j < L.length ∧ i = L.getD j 0 ∧
          ∀ j2, j2 < j → (t.bucket_at (L.getD j2 0)).is_occupied = true := by
  intro L
  induction L with
  | nil => intro i h; simp [ffu_list] at h
  | cons x rest ih =>
    intro i hres
    by_cases hb : (t.bucket_at x).is_occupied
    · simp only [ffu_list, if_pos hb] at hres
      rcases ih i hres with ⟨hno, j, hj, hi, hpre⟩
      refine ⟨hno, j + 1, by simpa using hj, by simpa using hi, ?_⟩
      intro j2 hj2
      cases j2 with
      | zero => simpa using hb
      | succ m =>
        have := hpre m (by omega)
        simpa using this
    · simp only [ffu_list, if_neg hb] at hres
      cases hres
      refine ⟨by simpa using hb, 0, by simp, by simp, by omega⟩

theorem ffu_list_isSome (t : HashTable κ ν) :
    ∀ (L : List Nat), (∃ x ∈ L, (t.bucket_at x).is_occupied = false) →
      (ffu_list t L).isSome := by
  intro L
  induction L with
  | nil => intro ⟨x, hx, _⟩; simp at hx
  | cons x rest ih =>
    intro ⟨x0, hx0, hocc0⟩
    by_cases hb : (t.bucket_at x).is_occupied
    · simp only [ffu_list, if_pos hb]
      refine ih ⟨x0, ?_, hocc0⟩
      rcases List.mem_cons.mp hx0 with rfl | hmem
      · rw [hocc0] at hb; cases hb
      · exact hmem
    · simp [ffu_list, if_neg hb]

theorem fe_list_spec (t : HashTable κ ν) (k : κ) :
    ∀ (L : List Nat) (i : Nat), fe_list t k L = some i →
      i ∈ L ∧ ∃ v, t.bucket_at i = .occupied k v := by
  intro L
  induction L with
  | nil => intro i h; simp [fe_list] at h
  | cons x rest ih =>
    intro i hres
    cases hb : t.bucket_at x with
    | occupied key v =>
      by_cases hk : key = k
      · simp only [fe_list, hb, if_pos hk] at hres
        cases hres
        exact ⟨List.mem_cons_self _ _, v, by rw [hb, hk]⟩
      · simp only [fe_list, hb, if_neg hk] at hres
        rcases ih i hres with ⟨hmem, hv⟩
        exact ⟨List.mem_cons_of_mem _ hmem, hv⟩
    | empty =>
      simp only [fe_list, hb] at hres
      rcases ih i hres with ⟨hmem, hv⟩
      exact ⟨List.mem_cons_of_mem _ hmem, hv⟩
    | deleted =>
      simp only [fe_list, hb] at hres
      rcases ih i hres with ⟨hmem, hv⟩
      exact ⟨List.mem_cons_of_mem _ hmem, hv⟩

theorem ne_empty_of_occ {b : Bucket κ ν} (h : b.is_occupied = true) : b ≠ .empty := by
  cases b <;> simp_all [Bucket.is_occupied]

theorem occ_ne_empty {k : κ} {v : ν} : (Bucket.occupied k v : Bucket κ ν) ≠ .empty := by
  simp

theorem capacity_place (t : HashTable κ ν) (i : Nat) (k : κ) (v : ν) :
    (t.place i k v).capacity = t.capacity := by
  simp [place, capacity]

theorem bucket_at_place_self (t : HashTable κ ν) {i : Nat} (hi : i < t.capacity)
    (k : κ) (v : ν) : (t.place i k v).bucket_at i = .occupied k v :=
  getD_set_self_nat _ _ hi _ _

theorem bucket_at_place_ne (t : HashTable κ ν) {i j : Nat} (h : i ≠ j)
    (k : κ) (v : ν) : (t.place i k v).bucket_at j = t.bucket_at j :=
  getD_set_ne_nat _ h _ _

theorem sum_val_place (g : ν → Nat) (t : HashTable κ ν) {i : Nat}
    (hi : i < t.capacity) (hno : (t.bucket_at i).is_occupied = false) (k : κ) (v : ν) :
    sum_val g (t.place i k v) = sum_val g t + g v := by
  have h := sum_map_set (bval g) t.buckets i hi (.occupied k v) .empty
  have hz : bval g (t.buckets.getD i .empty) = 0 := by
    cases hb : t.bucket_at i with
    | occupied key v2 => rw [hb] at hno; simp [Bucket.is_occupied] at hno
    | empty => rw [bucket_at] at hb; rw [hb]; rfl
    | deleted => rw [bucket_at] at hb; rw [hb]; rfl
  have e1 : bval g (Bucket.occupied k v : Bucket κ ν) = g v := rfl
  rw [hz, e1] at h
  simp only [sum_val, place]
  omega

theorem occ_count_place (t : HashTable κ ν) {i : Nat}
    (hi : i < t.capacity) (hno : (t.bucket_at i).is_occupied = false) (k : κ) (v : ν) :
    occ_count (t.place i k v) = occ_count t + 1 :=
  sum_val_place (fun _ => 1) t hi hno k v

theorem sum_val_delete (g : ν → Nat) (t : HashTable κ ν) {i : Nat} {k : κ} {v : ν}
    (hi : i < t.capacity) (hocc : t.bucket_at i = .occupied k v) (s : Nat) :
    sum_val g t =
      sum_val g { buckets := t.buckets.set i .deleted, size := s } + g v := by
  have h := sum_map_set (bval g) t.buckets i hi .deleted .empty
  rw [bucket_at] at hocc
  rw [hocc] at h
  have e1 : bval g (Bucket.occupied k v : Bucket κ ν) = g v := rfl
  have e2 : bval g (Bucket.deleted : Bucket κ ν) = 0 := rfl
  rw [e1, e2] at h
  simp only [sum_val]
  omega

theorem occ_count_delete (t : HashTable κ ν) {i : Nat} {k : κ} {v : ν}
    (hi : i < t.capacity) (hocc : t.bucket_at i = .occupied k v) (s : Nat) :
    occ_count t =
      occ_count { buckets := t.buckets.set i .deleted, size := s } + 1 :=
  sum_val_delete (fun _ => 1) t hi hocc s

theorem getD_replicate_empty : ∀ (n i : Nat),
    (List.replicate n (Bucket.empty : Bucket κ ν)).getD i .empty = .empty := by
  intro n
  induction n with
  | zero => intro i; rfl
  | succ m ih =>
    intro i
    cases i with
    | zero => rfl
    | succ j => simpa [List.replicate_succ] using ih j

theorem occ_count_le (t : HashTable κ ν) : occ_count t ≤ t.capacity := by
  have : ∀ (l : List (Bucket κ ν)),
      (l.map (bval (fun _ => (1 : Nat)))).sum ≤ l.length := by
    intro l
    induction l with
    | nil => simp
    | cons x xs ih =>
      have hx : bval (fun _ => (1 : Nat)) x ≤ 1 := by
        cases x <;> simp [bval]
      simp only [List.map_cons, List.sum_cons, List.length_cons]
      omega
  exact this t.buckets

theorem exists_nonocc_of_lt (t : HashTable κ ν) (h : occ_count t < t.capacity) :
    ∃ i, i < t.capacity ∧ (t.bucket_at i).is_occupied = false := by
  have haux : ∀ (l : List (Bucket κ ν)),
      (l.map (bval (fun _ => (1 : Nat)))).sum < l.length →
      ∃ i, i < l.length ∧ (l.getD i .empty).is_occupied = false := by
    intro l
    induction l with
    | nil => intro h0; simp at h0
    | cons x xs ih =>
      intro h0
      cases x with
      | occupied k v =>
        have hbv : bval (fun _ => (1 : Nat)) (Bucket.occupied k v : Bucket κ ν) = 1 := rfl
        simp only [List.map_cons, List.sum_cons, List.length_cons, hbv] at h0
        rcases ih (by omega) with ⟨i, hi, hno⟩
        refine ⟨i + 1, ?_, by simpa using hno⟩
        simp only [List.length_cons]
        omega
      | empty => exact ⟨0, by simp, by simp [Bucket.is_occupied]⟩
      | deleted => exact ⟨0, by simp, by simp [Bucket.is_occupied]⟩
  exact haux t.buckets h

theorem fiofu_lt (hash : κ → Nat) (t : HashTable κ ν) (k : κ) {i : Nat}
    (h : find_index_of_first_unoccupied hash t k = some i) : i < t.capacity := by
  unfold find_index_of_first_unoccupied at h
  by_cases hcap : t.capacity = 0
  · simp [hcap] at h
  · rw [if_neg hcap, fiofu_loop_eq] at h
    rcases fiofu_list_mem t k _ _ _ h with hmem | hf
    · exact probe_seq_mem t (Nat.mod_lt _ (Nat.pos_of_ne_zero hcap)) hmem
    · simp at hf

theorem fiofu_nonocc_probe (hash : κ → Nat) (t : HashTable κ ν) (k : κ) {i : Nat}
    (hres : find_index_of_first_unoccupied hash t k = some i)
    (hno : (t.bucket_at i).is_occupied = false) :
    ∃ j, j < t.capacity ∧ i = (hash k % t.capacity + j) % t.capacity ∧
      ∀ j2, j2 < j →
        (t.bucket_at ((hash k % t.capacity + j2) % t.capacity)).is_occupied = true := by
  unfold find_index_of_first_unoccupied at hres
  by_cases hcap : t.capacity = 0
  · simp [hcap] at hres
  · have hpos : 0 < t.capacity := Nat.pos_of_ne_zero hcap
    have hmod : hash k % t.capacity < t.capacity := Nat.mod_lt _ hpos
    rw [if_neg hcap, fiofu_loop_eq] at hres
    rcases fiofu_list_nonocc t k _ none i hres hno with h | ⟨_, j, hj, hi, hpre⟩
    · simp at h
    · rw [probe_seq_length] at hj
      refine ⟨j, hj, ?_, ?_⟩
      · rw [hi, probe_seq_getD t hmod hj]
      · intro j2 hj2
        have := hpre j2 hj2
        rwa [probe_seq_getD t hmod (Nat.lt_trans hj2 hj)] at this

theorem fiofu_occ_key (hash : κ → Nat) (t : HashTable κ ν) (k : κ) {i : Nat}
    {key : κ} {v : ν} (hres : find_index_of_first_unoccupied hash t k = some i)
    (hocc : t.bucket_at i = .occupied key v) : key = k := by
  unfold find_index_of_first_unoccupied at hres
  by_cases hcap : t.capacity = 0
  · simp [hcap] at hres
  · rw [if_neg hcap, fiofu_loop_eq] at hres
    exact fiofu_list_occ t k _ none i (by intro f hf; cases hf) hres key v hocc

theorem fiofu_isSome (hash : κ → Nat) (t : HashTable κ ν) (k : κ)
    (hcap : 0 < t.capacity) (hlt : occ_count t < t.capacity) :
    (find_index_of_first_unoccupied hash t k).isSome := by
  unfold find_index_of_first_unoccupied
  rw [if_neg (Nat.pos_iff_ne_zero.mp hcap), fiofu_loop_eq]
  apply fiofu_list_isSome
  right
  rcases exists_nonocc_of_lt t hlt with ⟨i, hi, hno⟩
  exact ⟨i, probe_seq_covers t (Nat.mod_lt _ hcap) hi, hno⟩

theorem fiofu_match_present (hash : κ → Nat) (t : HashTable κ ν) (k : κ)
    (hpo : probe_ok hash t k) :
    ∃ i, find_index_of_first_unoccupied hash t k = some i ∧
      ∃ v, t.bucket_at i = .occupied k v := by
  rcases hpo with ⟨j, hj, hocc, hpre⟩
  have hpos : 0 < t.capacity := Nat.lt_of_le_of_lt (Nat.zero_le _) hj
  have hmod : hash k % t.capacity < t.capacity := Nat.mod_lt _ hpos
  unfold find_index_of_first_unoccupied
  rw [if_neg (Nat.pos_iff_ne_zero.mp hpos), fiofu_loop_eq]
  apply fiofu_list_match
  · rw [probe_seq_length]; exact hj
  · rw [probe_seq_getD t hmod hj]; exact hocc
  · intro j2 hj2
    rw [probe_seq_getD t hmod (Nat.lt_trans hj2 hj)]
    exact hpre j2 hj2

theorem find_some_of_probe_ok (hash : κ → Nat) (t : HashTable κ ν) (k : κ)
    (hpo : probe_ok hash t k) :
    ∃ i, find hash t k = some i ∧ ∃ v, t.bucket_at i = .occupied k v := by
  rcases hpo with ⟨j, hj, hocc, hpre⟩
  have hpos : 0 < t.capacity := Nat.lt_of_le_of_lt (Nat.zero_le _) hj
  have hmod : hash k % t.capacity < t.capacity := Nat.mod_lt _ hpos
  unfold find
  rw [if_neg (Nat.pos_iff_ne_zero.mp hpos), find_loop_eq]
  apply find_list_success
  · rw [probe_seq_length]; exact hj
  · rw [probe_seq_getD t hmod hj]; exact hocc
  · intro j2 hj2
    rw [probe_seq_getD t hmod (Nat.lt_trans hj2 hj)]
    exact hpre j2 hj2

theorem ffu_probe (t : HashTable κ ν) {h0 i : Nat} (hh : h0 < t.capacity)
    (hres : t.find_first_unoccupied_index h0 = some i) :
    (t.bucket_at i).is_occupied = false ∧ i < t.capacity ∧
      ∃ j, j < t.capacity ∧ i = (h0 + j) % t.capacity ∧
        ∀ j2, j2 < j → (t.bucket_at ((h0 + j2) % t.capacity)).is_occupied = true := by
  have hpos : 0 < t.capacity := Nat.lt_of_le_of_lt (Nat.zero_le _) hh
  unfold find_first_unoccupied_index at hres
  rw [ffu_loop_eq] at hres
  rcases ffu_list_spec t _ i hres with ⟨hno, j, hj, hi, hpre⟩
  rw [probe_seq_length] at hj
  rw [probe_seq_getD t hh hj] at hi
  refine ⟨hno, by rw [hi]; exact Nat.mod_lt _ hpos, j, hj, hi, ?_⟩
  intro j2 hj2
  have := hpre j2 hj2
  rwa [probe_seq_getD t hh (Nat.lt_trans hj2 hj)] at this

theorem ffu_isSome (t : HashTable κ ν) (h0 : Nat) (hh : h0 < t.capacity)
    (hlt : occ_count t < t.capacity) :
    (t.find_first_unoccupied_index h0).isSome := by
  unfold find_first_unoccupied_index
  rw [ffu_loop_eq]
  apply ffu_list_isSome
  rcases exists_nonocc_of_lt t hlt with ⟨i, hi, hno⟩
  exact ⟨i, probe_seq_covers t hh hi, hno⟩

theorem fe_spec_top (hash : κ → Nat) (t : HashTable κ ν) (k : κ) {i : Nat}
    (hres : find_existing_index hash t k = some i) :
    i < t.capacity ∧ ∃ v, t.bucket_at i = .occupied k v := by
  unfold find_existing_index at hres
  by_cases hcap : t.capacity = 0
  · simp [hcap] at hres
  · have hpos : 0 < t.capacity := Nat.pos_of_ne_zero hcap
    rw [if_neg hcap, fe_loop_eq] at hres
    rcases fe_list_spec t k _ i hres with ⟨hmem, hv⟩
    exact ⟨probe_seq_mem t (Nat.mod_lt _ hpos) hmem, hv⟩

theorem getD_mem {α : Type} (l : List α) {i : Nat} (h : i < l.length) (d : α) :
    l.getD i d ∈ l := by
  rw [List.getD_eq_getElem?_getD, List.getElem?_eq_getElem h]
  exact List.getElem_mem _

theorem getD_eq_get {α : Type} (l : List α) (n : Fin l.length) (d : α) :
    l.getD n.1 d = l.get n := by
  rw [List.getD_eq_getElem?_getD, List.getElem?_eq_getElem n.isLt]
  simp [List.get_eq_getElem]

theorem entry_mem_iff (l : List (Bucket κ ν)) (k0 : κ) :
    (∃ v0, (k0, v0) ∈ l.filterMap entry_of) ↔
      ∃ i, i < l.length ∧ ∃ v0, l.getD i .empty = .occupied k0 v0 := by
  constructor
  · rintro ⟨v0, hmem⟩
    rcases List.mem_filterMap.mp hmem with ⟨b, hb, hfb⟩
    cases b with
    | occupied key v =>
      simp only [entry_of] at hfb
      cases hfb
      rcases List.get_of_mem hb with ⟨n, hn⟩
      exact ⟨n.1, n.isLt, v0, by rw [getD_eq_get l n, hn]⟩
    | empty => simp [entry_of] at hfb
    | deleted => simp [entry_of] at hfb
  · rintro ⟨i, hi, v0, hocc⟩
    refine ⟨v0, List.mem_filterMap.mpr ⟨.occupied k0 v0, ?_, rfl⟩⟩
    rw [← hocc]
    exact getD_mem l hi .empty

theorem key_present_iff_entry (t : HashTable κ ν) (k0 : κ) :
    key_present t k0 ↔ ∃ v0, (k0, v0) ∈ occ_entries t := by
  rw [occ_entries, entry_mem_iff]
  rfl

theorem occ_entries_length (t : HashTable κ ν) :
    (occ_entries t).length = occ_count t := by
  have haux : ∀ (l : List (Bucket κ ν)),
      (l.filterMap entry_of).length = (l.map (bval (fun _ => (1 : Nat)))).sum := by
    intro l
    induction l with
    | nil => rfl
    | cons x xs ih =>
      cases x with
      | occupied k v => simp [entry_of, bval, ih]; omega
      | empty => simp [entry_of, bval, ih]
      | deleted => simp [entry_of, bval, ih]
  exact haux t.buckets

theorem occ_entries_sum (g : ν → Nat) (t : HashTable κ ν) :
    ((occ_entries t).map (fun kv => g kv.2)).sum = sum_val g t := by
  have haux : ∀ (l : List (Bucket κ ν)),
      (((l.filterMap entry_of).map (fun kv => g kv.2))).sum = (l.map (bval g)).sum := by
    intro l
    induction l with
    | nil => rfl
    | cons x xs ih =>
      cases x <;> simp [entry_of, bval, ih]
  exact haux t.buckets

theorem nodup_keys_of_unique (t : HashTable κ ν) (hu : unique_keys t) :
    ((occ_entries t).map Prod.fst).Nodup := by
  have haux : ∀ (l : List (Bucket κ ν)),
      (∀ k i j, i < l.length → j < l.length →
        (∃ v, l.getD i .empty = .occupied k v) →
        (∃ v, l.getD j .empty = .occupied k v) → i = j) →
      ((l.filterMap entry_of).map Prod.fst).Nodup := by
    intro l
    induction l with
    | nil => intro _; simp
    | cons x xs ih =>
      intro hup
      have hxs : ∀ k i j, i < xs.length → j < xs.length →
          (∃ v, xs.getD i .empty = .occupied k v) →
          (∃ v, xs.getD j .empty = .occupied k v) → i = j := by
        intro k i j hi hj ha hb
        have := hup k (i + 1) (j + 1) (by simpa using hi) (by simpa using hj)
          (by simpa using ha) (by simpa using hb)
        omega
      cases hx : x with
      | occupied k v =>
        simp only [List.filterMap_cons, entry_of, List.map_cons, List.nodup_cons]
        refine ⟨?_, ih hxs⟩
        intro hk
        rcases List.mem_map.mp hk with ⟨kv, hkvmem, hfst⟩
        have hex : ∃ v0, (k, v0) ∈ xs.filterMap entry_of := by
          refine ⟨kv.2, ?_⟩
          have : kv = (k, kv.2) := by
            ext
            · exact hfst
            · rfl
          rwa [← this]
        rcases (entry_mem_iff xs k).mp hex with ⟨i, hi, v0, hocc⟩
        have := hup k 0 (i + 1) (by simp) (by simpa using hi)
          ⟨v, by simp [hx]⟩ ⟨v0, by simpa using hocc⟩
        omega
      | empty =>
        simp only [List.filterMap_cons, entry_of]
        exact ih hxs
      | deleted =>
        simp only [List.filterMap_cons, entry_of]
        exact ih hxs
  apply haux
  intro k i j hi hj ha hb
  exact hu k i j hi hj ha hb

theorem key_present_place (t : HashTable κ ν) {i : Nat} (hi : i < t.capacity)
    (hno : (t.bucket_at i).is_occupied = false) (k : κ) (v : ν) (k0 : κ) :
    key_present (t.place i k v) k0 ↔ (k0 = k ∨ key_present t k0) := by
  constructor
  · rintro ⟨j, hj, v0, hb⟩
    rw [capacity_place] at hj
    by_cases hij : i = j
    · subst hij
      rw [bucket_at_place_self t hi] at hb
      cases hb
      exact Or.inl rfl
    · rw [bucket_at_place_ne t hij] at hb
      exact Or.inr ⟨j, hj, v0, hb⟩
  · rintro (rfl | ⟨j, hj, v0, hb⟩)
    · exact ⟨i, by rw [capacity_place]; exact hi, v, bucket_at_place_self t hi k0 v⟩
    · have hij : i ≠ j := by
        intro h
        subst h
        rw [hb] at hno
        simp [Bucket.is_occupied] at hno
      exact ⟨j, by rw [capacity_place]; exact hj, v0,
        by rw [bucket_at_place_ne t hij]; exact hb⟩

theorem unique_keys_place (t : HashTable κ ν) {i : Nat} {k : κ} {v : ν}
    (hi : i < t.capacity) (hno : (t.bucket_at i).is_occupied = false)
    (hnp : ¬ key_present t k) (hu : unique_keys t) :
    unique_keys (t.place i k v) := by
  intro k0 a b ha hb hoa hob
  rw [capacity_place] at ha hb
  rcases hoa with ⟨va, hva⟩
  rcases hob with ⟨vb, hvb⟩
  by_cases hia : i = a
  · by_cases hib : i = b
    · omega
    · exfalso
      subst hia
      rw [bucket_at_place_self t hi] at hva
      cases hva
      rw [bucket_at_place_ne t hib] at hvb
      exact hnp ⟨b, hb, vb, hvb⟩
  · by_cases hib : i = b
    · exfalso
      subst hib
      rw [bucket_at_place_self t hi] at hvb
      cases hvb
      rw [bucket_at_place_ne t hia] at hva
      exact hnp ⟨a, ha, va, hva⟩
    · rw [bucket_at_place_ne t hia] at hva
      rw [bucket_at_place_ne t hib] at hvb
      exact hu k0 a b ha hb ⟨va, hva⟩ ⟨vb, hvb⟩

theorem probe_ok_place_preserved (hash : κ → Nat) (t : HashTable κ ν)
    {i : Nat} {k : κ} {v : ν} (hi : i < t.capacity)
    (hno : (t.bucket_at i).is_occupied = false) {k0 : κ}
    (hpo : probe_ok hash t k0) : probe_ok hash (t.place i k v) k0 := by
  rcases hpo with ⟨j, hj, ⟨v0, hocc⟩, hpre⟩
  simp only [probe_ok, capacity_place]
  refine ⟨j, hj, ⟨v0, ?_⟩, ?_⟩
  · have hne : i ≠ (hash k0 % t.capacity + j) % t.capacity := by
      intro h
      rw [← h] at hocc
      rw [hocc] at hno
      simp [Bucket.is_occupied] at hno
    rw [bucket_at_place_ne t hne]
    exact hocc
  · intro j2 hj2
    by_cases hne : i = (hash k0 % t.capacity + j2) % t.capacity
    · rw [← hne, bucket_at_place_self t hi]
      exact occ_ne_empty
    · rw [bucket_at_place_ne t hne]
      exact hpre j2 hj2

theorem probe_ok_place_new (hash : κ → Nat) (t : HashTable κ ν) (k : κ) (v : ν)
    {i j : Nat} (hi : i < t.capacity)
    (hno : (t.bucket_at i).is_occupied = false)
    (hij : i = (hash k % t.capacity + j) % t.capacity) (hj : j < t.capacity)
    (hpre : ∀ j2, j2 < j →
      (t.bucket_at ((hash k % t.capacity + j2) % t.capacity)).is_occupied = true) :
    probe_ok hash (t.place i k v) k := by
  simp only [probe_ok, capacity_place]
  refine ⟨j, hj, ⟨v, ?_⟩, ?_⟩
  · rw [← hij, bucket_at_place_self t hi]
  · intro j2 hj2
    by_cases hne : i = (hash k % t.capacity + j2) % t.capacity
    · rw [← hne, bucket_at_place_self t hi]
      exact occ_ne_empty
    · rw [bucket_at_place_ne t hne]
      exact ne_empty_of_occ (hpre j2 hj2)

theorem internal_insert_spec (hash : κ → Nat) (t : HashTable κ ν) (k : κ) (v : ν)
    {t2 : HashTable κ ν} (h : internal_insert hash t k v = some t2) :
    ∃ i, i < t.capacity ∧ (t.bucket_at i).is_occupied = false ∧
      t2 = t.place i k v ∧
      ∃ j, j < t.capacity ∧ i = (hash k % t.capacity + j) % t.capacity ∧
        ∀ j2, j2 < j →
          (t.bucket_at ((hash k % t.capacity + j2) % t.capacity)).is_occupied = true := by
  unfold internal_insert at h
  cases hffu : t.find_first_unoccupied_index (hash k % t.capacity) with
  | none => rw [hffu] at h; cases h
  | some i =>
    rw [hffu] at h
    simp only [Option.map_some'] at h
    have hcap : 0 < t.capacity := by
      rcases Nat.eq_zero_or_pos t.capacity with h0 | h0
      · exfalso
        unfold find_first_unoccupied_index at hffu
        rw [h0] at hffu
        simp [ffu_loop] at hffu
      · exact h0
    have hmod : hash k % t.capacity < t.capacity := Nat.mod_lt _ hcap
    rcases ffu_probe t hmod hffu with ⟨hno, hilt, j, hj, hij, hpre⟩
    cases h
    exact ⟨i, hilt, hno, rfl, j, hj, hij, hpre⟩

theorem internal_insert_isSome (hash : κ → Nat) (t : HashTable κ ν) (k : κ) (v : ν)
    (hcap : 0 < t.capacity) (hlt : occ_count t < t.capacity) :
    (internal_insert hash t k v).isSome := by
  unfold internal_insert
  have h := ffu_isSome t (hash k % t.capacity) (Nat.mod_lt _ hcap) hlt
  rcases Option.isSome_iff_exists.mp h with ⟨i, hi⟩
  rw [hi]
  rfl

/-- Effect of folding `internal_insert` over a list of entries, as performed
by `re_allocate`: given enough room, every step succeeds, the counters add
up, every key of the entry list becomes present, and (for an entry list with
distinct keys none of which is already present) the probe invariant and key
uniqueness carry over. -/
theorem fold_internal_insert_spec (hash : κ → Nat) :
    ∀ (es : List (κ × ν)) (acc : HashTable κ ν),
      occ_count acc + es.length ≤ acc.capacity →
      ∃ r, es.foldlM (fun a kv => internal_insert hash a kv.1 kv.2) acc = some r ∧
        r.capacity = acc.capacity ∧
        r.size = acc.size + es.length ∧
        occ_count r = occ_count acc + es.length ∧
        (∀ g, sum_val g r = sum_val g acc + (es.map (fun kv => g kv.2)).sum) ∧
        (∀ k0, key_present r k0 ↔ (key_present acc k0 ∨ ∃ v0, (k0, v0) ∈ es)) ∧
        ((es.map Prod.fst).Nodup →
          (∀ kv, kv ∈ es → ¬ key_present acc kv.1) →
          unique_keys acc →
          (∀ k0, key_present acc k0 → probe_ok hash acc k0) →
          (unique_keys r ∧ ∀ k0, key_present r k0 → probe_ok hash r k0)) := by
  intro es
  induction es with
  | nil =>
    intro acc _
    refine ⟨acc, rfl, rfl, by simp, by simp, by simp, ?_, ?_⟩
    · intro k0; simp
    · intro _ _ hu hp
      exact ⟨hu, hp⟩
  | cons kv es ih =>
    intro acc hroom
    rcases kv with ⟨k, v⟩
    have hcap : 0 < acc.capacity := by
      simp only [List.length_cons] at hroom
      omega
    have hlt : occ_count acc < acc.capacity := by
      simp only [List.length_cons] at hroom
      omega
    have hsome := internal_insert_isSome hash acc k v hcap hlt
    rcases Option.isSome_iff_exists.mp hsome with ⟨t1, ht1⟩
    rcases internal_insert_spec hash acc k v ht1 with
      ⟨i, hi, hno, ht1eq, j, hj, hij, hpre⟩
    subst ht1eq
    have hcap1 : (acc.place i k v).capacity = acc.capacity := capacity_place acc i k v
    have hocc1 : occ_count (acc.place i k v) = occ_count acc + 1 :=
      occ_count_place acc hi hno k v
    have hroom1 : occ_count (acc.place i k v) + es.length ≤ (acc.place i k v).capacity := by
      rw [hocc1, hcap1]
      simp only [List.length_cons] at hroom
      omega
    rcases ih (acc.place i k v) hroom1 with
      ⟨r, hfold, hrcap, hrsize, hrocc, hrsum, hrpres, hrinv⟩
    refine ⟨r, ?_, ?_, ?_, ?_, ?_, ?_, ?_⟩
    · rw [List.foldlM_cons, ht1]
      exact hfold
    · rw [hrcap, hcap1]
    · rw [hrsize]
      simp only [place, List.length_cons]
      omega
    · rw [hrocc, hocc1]
      simp only [List.length_cons]
      omega
    · intro g
      rw [hrsum g, sum_val_place g acc hi hno k v]
      simp only [List.map_cons, List.sum_cons]
      omega
    · intro k0
      rw [hrpres k0, key_present_place acc hi hno k v k0]
      constructor
      · rintro ((rfl | hp) | ⟨v0, hv0⟩)
        · exact Or.inr ⟨v, List.mem_cons_self _ _⟩
        · exact Or.inl hp
        · exact Or.inr ⟨v0, List.mem_cons_of_mem _ hv0⟩
      · rintro (hp | ⟨v0, hv0⟩)
        · exact Or.inl (Or.inr hp)
        · rcases List.mem_cons.mp hv0 with heq | hmem
          · have : k0 = k := congrArg Prod.fst heq
            exact Or.inl (Or.inl this)
          · exact Or.inr ⟨v0, hmem⟩
    · intro hnodup hnp hu hp
      simp only [List.map_cons, List.nodup_cons] at hnodup
      rcases hnodup with ⟨hknotin, hnodup2⟩
      have hnpk : ¬ key_present acc k := hnp (k, v) (List.mem_cons_self _ _)
      have hu1 : unique_keys (acc.place i k v) :=
        unique_keys_place acc hi hno hnpk hu
      have hp1 : ∀ k0, key_present (acc.place i k v) k0 →
          probe_ok hash (acc.place i k v) k0 := by
        intro k0 hk0
        rcases (key_present_place acc hi hno k v k0).mp hk0 with rfl | hk0acc
        · exact probe_ok_place_new hash acc k0 v hi hno hij hj hpre
        · exact probe_ok_place_preserved hash acc hi hno (hp k0 hk0acc)
      have hnp1 : ∀ kv2, kv2 ∈ es → ¬ key_present (acc.place i k v) kv2.1 := by
        intro kv2 hkv2 hpres
        rcases (key_present_place acc hi hno k v kv2.1).mp hpres with heq | hacc
        · exact hknotin (heq ▸ List.mem_map_of_mem Prod.fst hkv2)
        · exact hnp kv2 (List.mem_cons_of_mem _ hkv2) hacc
      exact hrinv hnodup2 hnp1 hu1 hp1

/-- Effect of `re_allocate` when the new capacity has room for every live
entry: it succeeds, preserves the occupied-bucket statistics and the present
keys, sets `m_size` to the number of live entries, and (given key uniqueness)
re-establishes the probe invariant in the fresh buffer. -/
theorem re_allocate_spec (hash : κ → Nat) (t : HashTable κ ν) (newCap : Nat)
    (hroom : occ_count t ≤ newCap) :
    ∃ r, re_allocate hash t newCap = some r ∧
      r.capacity = newCap ∧
      r.size = occ_count t ∧
      occ_count r = occ_count t ∧
      (∀ g, sum_val g r = sum_val g t) ∧
      (∀ k0, key_present r k0 ↔ key_present t k0) ∧
      (unique_keys t →
        (unique_keys r ∧ ∀ k0, key_present r k0 → probe_ok hash r k0)) := by
  have hfreshcap : (HashTable.mk (List.replicate newCap (.empty : Bucket κ ν)) 0).capacity
      = newCap := by
    simp [capacity]
  have hfreshocc : occ_count (HashTable.mk (List.replicate newCap (.empty : Bucket κ ν)) 0)
      = 0 := by
    have : ∀ n, ((List.replicate n (.empty : Bucket κ ν)).map
        (bval (fun _ => (1 : Nat)))).sum = 0 := by
      intro n
      induction n with
      | zero => rfl
      | succ m ihm => simpa [List.replicate_succ, bval] using ihm
    exact this newCap
  have hfreshsum : ∀ g, sum_val g (HashTable.mk (List.replicate newCap (.empty : Bucket κ ν)) 0)
      = 0 := by
    intro g
    have : ∀ n, ((List.replicate n (.empty : Bucket κ ν)).map (bval g)).sum = 0 := by
      intro n
      induction n with
      | zero => rfl
      | succ m ihm => simpa [List.replicate_succ, bval] using ihm
    exact this newCap
  have hfreshpres : ∀ k0, ¬ key_present
      (HashTable.mk (List.replicate newCap (.empty : Bucket κ ν)) 0) k0 := by
    rintro k0 ⟨i, hi, v, hb⟩
    rw [show (HashTable.mk (List.replicate newCap (.empty : Bucket κ ν)) 0).bucket_at i
        = .empty from getD_replicate_empty newCap i] at hb
    cases hb
  have hfreshuniq : unique_keys
      (HashTable.mk (List.replicate newCap (.empty : Bucket κ ν)) 0) := by
    intro k0 a b _ _ hoa _
    exfalso
    rcases hoa with ⟨va, hva⟩
    rw [show (HashTable.mk (List.replicate newCap (.empty : Bucket κ ν)) 0).bucket_at a
        = .empty from getD_replicate_empty newCap a] at hva
    cases hva
  have hroom2 : occ_count (HashTable.mk (List.replicate newCap (.empty : Bucket κ ν)) 0)
      + (occ_entries t).length ≤
      (HashTable.mk (List.replicate newCap (.empty : Bucket κ ν)) 0).capacity := by
    rw [hfreshocc, hfreshcap, occ_entries_length]
    omega
  rcases fold_internal_insert_spec hash (occ_entries t)
      (HashTable.mk (List.replicate newCap (.empty : Bucket κ ν)) 0) hroom2 with
    ⟨r, hfold, hrcap, hrsize, hrocc, hrsum, hrpres, hrinv⟩
  refine ⟨r, ?_, ?_, ?_, ?_, ?_, ?_, ?_⟩
  · rw [re_allocate]
    exact hfold
  · rw [hrcap, hfreshcap]
  · rw [hrsize, occ_entries_length]
    simp
  · rw [hrocc, hfreshocc, occ_entries_length]
    simp
  · intro g
    rw [hrsum g, hfreshsum g, occ_entries_sum g]
    simp
  · intro k0
    rw [hrpres k0, key_present_iff_entry t k0]
    constructor
    · rintro (hp | h)
      · exact absurd hp (hfreshpres k0)
      · exact h
    · intro h
      exact Or.inr h
  · intro hu
    refine hrinv (nodup_keys_of_unique t hu) ?_ hfreshuniq ?_
    · intro kv _ hpres
      exact hfreshpres kv.1 hpres
    · intro k0 hk0
      exact absurd hk0 (hfreshpres k0)

/-- The inductive invariant: `m_size` counts the occupied buckets, every key
occupies at most one bucket, and every present key satisfies the probe
property. -/
def inv (hash : κ → Nat) (t : HashTable κ ν) : Prop :=
  t.size = occ_count t ∧ unique_keys t ∧
    ∀ k, key_present t k → probe_ok hash t k

theorem bucket_at_clear (t : HashTable κ ν) (i : Nat) :
    (clear t).bucket_at i = .empty :=
  getD_replicate_empty _ _

theorem key_present_clear (t : HashTable κ ν) (k : κ) :
    ¬ key_present (clear t) k := by
  rintro ⟨i, _, v, hb⟩
  rw [bucket_at_clear] at hb
  cases hb

theorem occ_count_replicate (n s : Nat) :
    occ_count (HashTable.mk (List.replicate n (.empty : Bucket κ ν)) s) = 0 := by
  have haux : ∀ m, ((List.replicate m (.empty : Bucket κ ν)).map
      (bval (fun _ => (1 : Nat)))).sum = 0 := by
    intro m
    induction m with
    | zero => rfl
    | succ m2 ihm => simpa [List.replicate_succ, bval] using ihm
  exact haux n

theorem inv_clear (hash : κ → Nat) (t : HashTable κ ν) : inv hash (clear t) := by
  refine ⟨(occ_count_replicate t.capacity 0).symm, ?_, ?_⟩
  · intro k0 a b _ _ hoa _
    exfalso
    rcases hoa with ⟨va, hva⟩
    rw [bucket_at_clear] at hva
    cases hva
  · intro k hk
    exact absurd hk (key_present_clear t k)

theorem inv_new_table (hash : κ → Nat) : inv hash (new_table : HashTable κ ν) := by
  refine ⟨rfl, ?_, ?_⟩
  · intro k0 a b ha _ _ _
    simp [new_table, capacity] at ha
  · rintro k ⟨i, hi, _⟩
    simp [new_table, capacity] at hi

/-- The `is_over_load_factor` guard of `insert`: the optional rehash always
succeeds and afterwards the table is strictly under the maximum load
factor. -/
theorem insert_rehash_stage (hash : κ → Nat) (t : HashTable κ ν)
    (hinv : inv hash t) :
    ∃ t1, (if t.is_over_load_factor then t.re_allocate hash t.calculate_growth
           else some t) = some t1 ∧
      inv hash t1 ∧ t1.size = t.size ∧ occ_count t1 = occ_count t ∧
      (∀ g, sum_val g t1 = sum_val g t) ∧
      (∀ k0, key_present t1 k0 ↔ key_present t k0) ∧
      4 * t1.size < 3 * t1.capacity := by
  rcases hinv with ⟨hsz, hu, hp⟩
  by_cases hover : t.is_over_load_factor = true
  · rw [if_pos hover]
    have hroom : occ_count t ≤ t.calculate_growth := by
      have := occ_count_le t
      simp only [calculate_growth]
      omega
    rcases re_allocate_spec hash t t.calculate_growth hroom with
      ⟨r, hre, hrcap, hrsize, hrocc, hrsum, hrpres, hrinv⟩
    rcases hrinv hu with ⟨hu2, hp2⟩
    refine ⟨r, hre, ⟨by rw [hrsize, hrocc], hu2, hp2⟩,
      by rw [hrsize, ← hsz], hrocc, hrsum, hrpres, ?_⟩
    have h1 := occ_count_le t
    rw [hrsize, hrcap]
    simp only [calculate_growth]
    omega
  · rw [if_neg hover]
    refine ⟨t, rfl, ⟨hsz, hu, hp⟩, rfl, rfl, fun g => rfl, fun k0 => Iff.rfl, ?_⟩
    simp only [is_over_load_factor, Bool.or_eq_true, beq_iff_eq,
      decide_eq_true_eq] at hover
    push_neg at hover
    omega

theorem insert_destruct (hash : κ → Nat) (t : HashTable κ ν) (k : κ) (v : ν)
    {t2 : HashTable κ ν} (h : insert hash t k v = some t2) :
    ∃ t1 i, (if t.is_over_load_factor then t.re_allocate hash t.calculate_growth
             else some t) = some t1 ∧
      t1.find_index_of_first_unoccupied hash k = some i ∧
      (t1.bucket_at i).is_occupied = false ∧ t2 = t1.place i k v := by
  rw [insert, Option.bind_eq_some] at h
  rcases h with ⟨t1, hif, h⟩
  rw [Option.bind_eq_some] at h
  rcases h with ⟨i, hfio, h⟩
  cases hb : t1.bucket_at i with
  | occupied key v2 => rw [hb] at h; simp at h
  | empty =>
    rw [hb] at h
    exact ⟨t1, i, hif, hfio, by rw [hb]; rfl, (Option.some.inj h).symm⟩
  | deleted =>
    rw [hb] at h
    exact ⟨t1, i, hif, hfio, by rw [hb]; rfl, (Option.some.inj h).symm⟩

/-- Full effect of a successful `insert` on an invariant-satisfying table:
the invariant is preserved, the key was new, it is now present (and
presence is otherwise unchanged), `m_size` grows by one, and after the
operation `size ≤ ⌊0.75 · capacity⌋ + 1` holds. -/
theorem insert_spec (hash : κ → Nat) (t : HashTable κ ν) (k : κ) (v : ν)
    {t2 : HashTable κ ν} (hinv : inv hash t) (h : insert hash t k v = some t2) :
    inv hash t2 ∧ ¬ key_present t k ∧
      (∀ k0, key_present t2 k0 ↔ (k0 = k ∨ key_present t k0)) ∧
      t2.size = t.size + 1 ∧
      4 * t2.size ≤ 3 * t2.capacity + 4 := by
  rcases insert_destruct hash t k v h with ⟨t1, i, hif, hfio, hno, ht2⟩
  rcases insert_rehash_stage hash t hinv with
    ⟨t1b, hif2, hinv1, hsz1, _, _, hpres1, hload1⟩
  rw [hif] at hif2
  cases Option.some.inj hif2
  rcases hinv1 with ⟨hsz1eq, hu1, hp1⟩
  have hi_lt : i < t1.capacity := fiofu_lt hash t1 k hfio
  have hnp1 : ¬ key_present t1 k := by
    intro hpres
    rcases fiofu_match_present hash t1 k (hp1 k hpres) with ⟨i2, hi2, v2, hocc2⟩
    rw [hfio] at hi2
    cases Option.some.inj hi2
    rw [hocc2] at hno
    simp [Bucket.is_occupied] at hno
  have hnp : ¬ key_present t k := fun hpt => hnp1 ((hpres1 k).mpr hpt)
  rcases fiofu_nonocc_probe hash t1 k hfio hno with ⟨j, hj, hij, hpre⟩
  subst ht2
  refine ⟨⟨?_, unique_keys_place t1 hi_lt hno hnp1 hu1, ?_⟩, hnp, ?_, ?_, ?_⟩
  · rw [show (t1.place i k v).size = t1.size + 1 from rfl,
      occ_count_place t1 hi_lt hno k v, hsz1eq]
  · intro k0 hk0
    rcases (key_present_place t1 hi_lt hno k v k0).mp hk0 with rfl | hk0t1
    · exact probe_ok_place_new hash t1 k0 v hi_lt hno hij hj hpre
    · exact probe_ok_place_preserved hash t1 hi_lt hno (hp1 k0 hk0t1)
  · intro k0
    rw [key_present_place t1 hi_lt hno k v k0, hpres1 k0]
  · rw [show (t1.place i k v).size = t1.size + 1 from rfl, hsz1]
  · rw [show (t1.place i k v).size = t1.size + 1 from rfl, capacity_place]
    omega

/-- Effect of a successful `insert` on the occupied-bucket statistics; no
invariant is assumed (used for the allocation-tracker ledger). -/
theorem insert_sums (hash : κ → Nat) (t : HashTable κ ν) (k : κ) (v : ν)
    {t2 : HashTable κ ν} (h : insert hash t k v = some t2) :
    (∀ g, sum_val g t2 = sum_val g t + g v) ∧
      occ_count t2 = occ_count t + 1 := by
  rcases insert_destruct hash t k v h with ⟨t1, i, hif, hfio, hno, ht2⟩
  have hi_lt : i < t1.capacity := fiofu_lt hash t1 k hfio
  have hstage : (∀ g, sum_val g t1 = sum_val g t) ∧ occ_count t1 = occ_count t := by
    by_cases hover : t.is_over_load_factor = true
    · rw [if_pos hover] at hif
      have hroom : occ_count t ≤ t.calculate_growth := by
        have := occ_count_le t
        simp only [calculate_growth]
        omega
      rcases re_allocate_spec hash t t.calculate_growth hroom with
        ⟨r, hre, _, _, hrocc, hrsum, _, _⟩
      rw [hre] at hif
      cases Option.some.inj hif
      exact ⟨hrsum, hrocc⟩
    · rw [if_neg hover] at hif
      cases Option.some.inj hif
      exact ⟨fun g => rfl, rfl⟩
  subst ht2
  refine ⟨?_, ?_⟩
  · intro g
    rw [sum_val_place g t1 hi_lt hno k v, hstage.1 g]
  · rw [occ_count_place t1 hi_lt hno k v, hstage.2]

/-- A fresh key can always be inserted into an invariant-satisfying table. -/
theorem insert_isSome (hash : κ → Nat) (t : HashTable κ ν) (k : κ) (v : ν)
    (hinv : inv hash t) (hnp : ¬ key_present t k) :
    ∃ t2, insert hash t k v = some t2 := by
  rcases insert_rehash_stage hash t hinv with
    ⟨t1, hif, hinv1, _, _, _, hpres1, hload1⟩
  rcases hinv1 with ⟨hsz1, hu1, hp1⟩
  have hcap1 : 0 < t1.capacity := by omega
  have hlt : occ_count t1 < t1.capacity := by omega
  have hsome := fiofu_isSome hash t1 k hcap1 hlt
  rcases Option.isSome_iff_exists.mp hsome with ⟨i, hfio⟩
  have hno : (t1.bucket_at i).is_occupied = false := by
    cases hb : t1.bucket_at i with
    | occupied key v2 =>
      exfalso
      have hkey : key = k := fiofu_occ_key hash t1 k hfio hb
      subst hkey
      exact hnp ((hpres1 key).mp ⟨i, fiofu_lt hash t1 key hfio, v2, hb⟩)
    | empty => rfl
    | deleted => rfl
  refine ⟨t1.place i k v, ?_⟩
  rw [insert]
  apply Option.bind_eq_some.mpr
  refine ⟨t1, hif, ?_⟩
  apply Option.bind_eq_some.mpr
  refine ⟨i, hfio, ?_⟩
  cases hb : t1.bucket_at i with
  | occupied key v2 => rw [hb] at hno; simp [Bucket.is_occupied] at hno
  | empty => rfl
  | deleted => rfl

theorem capacity_del (t : HashTable κ ν) (i s : Nat) :
    (HashTable.mk (t.buckets.set i .deleted) s).capacity = t.capacity := by
  simp [capacity]

theorem bucket_at_del_self (t : HashTable κ ν) {i : Nat} (hi : i < t.capacity)
    (s : Nat) : (HashTable.mk (t.buckets.set i .deleted) s).bucket_at i = .deleted :=
  getD_set_self_nat _ _ hi _ _

theorem bucket_at_del_ne (t : HashTable κ ν) {i j : Nat} (hne : i ≠ j) (s : Nat) :
    (HashTable.mk (t.buckets.set i .deleted) s).bucket_at j = t.bucket_at j :=
  getD_set_ne_nat _ hne _ _

theorem bracket_spec (hash : κ → Nat) (t : HashTable κ ν) (k : κ) (d : ν)
    {t2 : HashTable κ ν} (hinv : inv hash t) (h : bracket hash t k d = some t2) :
    inv hash t2 := by
  rcases hinv with ⟨hsz, hu, hp⟩
  rw [bracket, Option.bind_eq_some] at h
  rcases h with ⟨i, hfio, h⟩
  have hi_lt : i < t.capacity := fiofu_lt hash t k hfio
  cases hb : t.bucket_at i with
  | occupied key v2 =>
    rw [hb] at h
    cases Option.some.inj h
    exact ⟨hsz, hu, hp⟩
  | empty =>
    rw [hb] at h
    have hno : (t.bucket_at i).is_occupied = false := by rw [hb]; rfl
    have hnp : ¬ key_present t k := by
      intro hpres
      rcases fiofu_match_present hash t k (hp k hpres) with ⟨i2, hi2, v2, hocc2⟩
      rw [hfio] at hi2
      cases Option.some.inj hi2
      rw [hb] at hocc2
      cases hocc2
    rcases fiofu_nonocc_probe hash t k hfio hno with ⟨j, hj, hij, hpre⟩
    cases Option.some.inj h
    refine ⟨?_, unique_keys_place t hi_lt hno hnp hu, ?_⟩
    · rw [show (t.place i k d).size = t.size + 1 from rfl,
        occ_count_place t hi_lt hno k d, hsz]
    · intro k0 hk0
      rcases (key_present_place t hi_lt hno k d k0).mp hk0 with rfl | hk0t
      · exact probe_ok_place_new hash t k0 d hi_lt hno hij hj hpre
      · exact probe_ok_place_preserved hash t hi_lt hno (hp k0 hk0t)
  | deleted =>
    rw [hb] at h
    have hno : (t.bucket_at i).is_occupied = false := by rw [hb]; rfl
    have hnp : ¬ key_present t k := by
      intro hpres
      rcases fiofu_match_present hash t k (hp k hpres) with ⟨i2, hi2, v2, hocc2⟩
      rw [hfio] at hi2
      cases Option.some.inj hi2
      rw [hb] at hocc2
      cases hocc2
    rcases fiofu_nonocc_probe hash t k hfio hno with ⟨j, hj, hij, hpre⟩
    cases Option.some.inj h
    refine ⟨?_, unique_keys_place t hi_lt hno hnp hu, ?_⟩
    · rw [show (t.place i k d).size = t.size + 1 from rfl,
        occ_count_place t hi_lt hno k d, hsz]
    · intro k0 hk0
      rcases (key_present_place t hi_lt hno k d k0).mp hk0 with rfl | hk0t
      · exact probe_ok_place_new hash t k0 d hi_lt hno hij hj hpre
      · exact probe_ok_place_preserved hash t hi_lt hno (hp k0 hk0t)

theorem remove_spec (hash : κ → Nat) (t : HashTable κ ν) (k : κ)
    {t2 : HashTable κ ν} (hinv : inv hash t) (h : remove hash t k = some t2) :
    inv hash t2 := by
  rcases hinv with ⟨hsz, hu, hp⟩
  rw [remove] at h
  cases hfe : t.find_existing_index hash k with
  | none => rw [hfe] at h; simp at h
  | some i =>
    rw [hfe] at h
    simp only [Option.map_some'] at h
    cases Option.some.inj h
    rcases fe_spec_top hash t k hfe with ⟨hi_lt, v, hocc⟩
    have hocc_eq := occ_count_delete t hi_lt hocc (t.size - 1)
    refine ⟨?_, ?_, ?_⟩
    · show t.size - 1 = occ_count (HashTable.mk (t.buckets.set i .deleted) (t.size - 1))
      omega
    · intro k0 a b ha hb hoa hob
      rw [capacity_del] at ha hb
      rcases hoa with ⟨va, hva⟩
      rcases hob with ⟨vb, hvb⟩
      have hia : i ≠ a := by
        intro he
        subst he
        rw [bucket_at_del_self t hi_lt] at hva
        cases hva
      have hib : i ≠ b := by
        intro he
        subst he
        rw [bucket_at_del_self t hi_lt] at hvb
        cases hvb
      rw [bucket_at_del_ne t hia] at hva
      rw [bucket_at_del_ne t hib] at hvb
      exact hu k0 a b ha hb ⟨va, hva⟩ ⟨vb, hvb⟩
    · intro k0 hk0
      rcases hk0 with ⟨a, ha, va, hva⟩
      rw [capacity_del] at ha
      have hia : i ≠ a := by
        intro he
        subst he
        rw [bucket_at_del_self t hi_lt] at hva
        cases hva
      rw [bucket_at_del_ne t hia] at hva
      have hk0ne : k0 ≠ k := by
        intro he
        subst he
        exact hia (hu k0 i a hi_lt ha ⟨v, hocc⟩ ⟨va, hva⟩)
      rcases hp k0 ⟨a, ha, va, hva⟩ with ⟨j, hj, ⟨v0, hocc0⟩, hpre0⟩
      simp only [probe_ok, capacity_del]
      refine ⟨j, hj, ⟨v0, ?_⟩, ?_⟩
      · have hne : i ≠ (hash k0 % t.capacity + j) % t.capacity := by
          intro he
          rw [← he] at hocc0
          rw [hocc] at hocc0
          cases hocc0
          exact hk0ne rfl
        rw [bucket_at_del_ne t hne]
        exact hocc0
      · intro j2 hj2
        by_cases hne : i = (hash k0 % t.capacity + j2) % t.capacity
        · rw [← hne, bucket_at_del_self t hi_lt]
          simp
        · rw [bucket_at_del_ne t hne]
          exact hpre0 j2 hj2

/-- A whole sequence of `insert` calls, in list order. -/
def insert_all (hash : κ → Nat) (val : κ → ν) (ks : List κ) (t : HashTable κ ν) :
    Option (HashTable κ ν) :=
  ks.foldlM (fun a k => insert hash a k (val k)) t

theorem insert_all_spec (hash : κ → Nat) (val : κ → ν) :
    ∀ (ks : List κ) (t : HashTable κ ν), inv hash t →
      (∀ k, k ∈ ks → ¬ key_present t k) → ks.Nodup →
      4 * t.size ≤ 3 * t.capacity + 4 →
      ∃ r, insert_all hash val ks t = some r ∧ inv hash r ∧
        r.size = t.size + ks.length ∧
        4 * r.size ≤ 3 * r.capacity + 4 ∧
        (∀ k0, key_present r k0 ↔ (k0 ∈ ks ∨ key_present t k0)) := by
  intro ks
  induction ks with
  | nil =>
    intro t hinv _ _ hbound
    exact ⟨t, rfl, hinv, by simp, hbound, by simp⟩
  | cons k ks ih =>
    intro t hinv hnp hnd hbound
    simp only [List.nodup_cons] at hnd
    rcases hnd with ⟨hknotin, hnd2⟩
    rcases insert_isSome hash t k (val k) hinv (hnp k (List.mem_cons_self _ _)) with
      ⟨t2, hins⟩
    rcases insert_spec hash t k (val k) hinv hins with
      ⟨hinv2, _, hpres2, hsize2, hbound2⟩
    have hnp2 : ∀ k2, k2 ∈ ks → ¬ key_present t2 k2 := by
      intro k2 hk2 hpres
      rcases (hpres2 k2).mp hpres with rfl | hpt
      · exact hknotin hk2
      · exact hnp k2 (List.mem_cons_of_mem _ hk2) hpt
    rcases ih t2 hinv2 hnp2 hnd2 hbound2 with ⟨r, hall, hinvr, hrsize, hrbound, hrpres⟩
    refine ⟨r, ?_, hinvr, ?_, hrbound, ?_⟩
    · rw [insert_all, List.foldlM_cons, hins]
      simpa [insert_all] using hall
    · rw [hrsize, hsize2]
      simp only [List.length_cons]
      omega
    · intro k0
      rw [hrpres k0, hpres2 k0]
      constructor
      · rintro (hmem | (rfl | hpt))
        · exact Or.inl (List.mem_cons_of_mem _ hmem)
        · exact Or.inl (List.mem_cons_self _ _)
        · exact Or.inr hpt
      · rintro (hmem | hpt)
        · rcases List.mem_cons.mp hmem with rfl | hmem2
          · exact Or.inr (Or.inl rfl)
          · exact Or.inl hmem2
        · exact Or.inr (Or.inr hpt)

theorem reach_inv (hash : κ → Nat) {t : HashTable κ ν} (h : reach hash t) :
    inv hash t := by
  induction h with
  | init => exact inv_new_table hash
  | insert_step _ hins ih => exact (insert_spec hash _ _ _ ih hins).1
  | bracket_step _ hbr ih => exact bracket_spec hash _ _ _ ih hbr
  | remove_step _ hrm ih => exact remove_spec hash _ _ ih hrm
  | clear_step _ _ => exact inv_clear hash _

end HashTable

namespace Claims

open HashTable

/-- Claim C3: for every hash-table state reachable by any sequence of
`insert`, `operator[]`, `remove` and `clear` operations, and for every key
`K` present in the table, the linear probe that starts at
`hash(K) mod capacity` and advances by one modulo the capacity visits `K`'s
occupied bucket before encountering any `Empty` bucket (tombstoned buckets
do not terminate the probe). -/
theorem C3_probe_invariant {κ ν : Type} [DecidableEq κ] (hash : κ → Nat)
    (t : HashTable κ ν) (h : reach hash t) (k : κ) (hp : key_present t k) :
    probe_ok hash t k :=
  (reach_inv hash h).2.2 k hp

/-- Witness for C3 at a concrete reachable table: insert key 5 (hash = id)
into the empty table and check the probe property of key 5. -/
theorem C3_witness :
    (insert (fun a => a) (new_table : HashTable Nat Nat) 5 7
        = some ⟨[.empty, .occupied 5 7], 1⟩) ∧
      probe_ok (fun a => a) (⟨[.empty, .occupied 5 7], 1⟩ : HashTable Nat Nat) 5 := by
  refine ⟨by decide, ?_⟩
  exact C3_probe_invariant (fun a => a) _
    (@reach.insert_step Nat Nat _ (fun a => a) new_table
      ⟨[.empty, .occupied 5 7], 1⟩ 5 7 reach.init (by decide))
    5 ⟨1, by decide, 7, by decide⟩

/-- Claim C7: calling `find(K)` on a hash map with `capacity == 0` returns
the `EndOfTable` sentinel (`none` in this embedding) for every key `K`; the
source guards `m_capacity == 0` before the `hash(K) % m_capacity` reduction,
so no modulo by zero is evaluated, which the embedding mirrors by placing
the modulo in the guarded branch only. -/
theorem C7_find_capacity_zero {κ ν : Type} [DecidableEq κ] (hash : κ → Nat)
    (t : HashTable κ ν) (k : κ) (h : t.capacity = 0) :
    find hash t k = none := by
  simp [find, h]

/-- Witness for C7 at the default-constructed table. -/
theorem C7_witness :
    (new_table : HashTable Nat Nat).capacity = 0 ∧
      find (fun a => a) (new_table : HashTable Nat Nat) 42 = none :=
  ⟨rfl, C7_find_capacity_zero (fun a => a) new_table 42 rfl⟩

/-- Counterexample to claim C1 as stated: inserting just two distinct keys
(identity hash) into an initially empty map yields `size = 2` with
`capacity = 2`, so the live load factor is `1.0 ≥ 0.75` and
`size ≤ ⌊0.75 · capacity⌋ = 1` fails. `insert` only checks the load factor
before placing the new element, so the post-insert load factor can reach and
exceed 0.75. -/
theorem C1_counterexample :
    insert (fun a => a) (new_table : HashTable Nat Nat) 0 0
        = some ⟨[.occupied 0 0, .empty], 1⟩ ∧
      insert (fun a => a) (⟨[.occupied 0 0, .empty], 1⟩ : HashTable Nat Nat) 1 1
        = some ⟨[.occupied 0 0, .occupied 1 1], 2⟩ ∧
      (⟨[.occupied 0 0, .occupied 1 1], 2⟩ : HashTable Nat Nat).size = 2 ∧
      (⟨[.occupied 0 0, .occupied 1 1], 2⟩ : HashTable Nat Nat).capacity = 2 ∧
      3 * (⟨[.occupied 0 0, .occupied 1 1], 2⟩ : HashTable Nat Nat).capacity ≤
        4 * (⟨[.occupied 0 0, .occupied 1 1], 2⟩ : HashTable Nat Nat).size ∧
      ¬ ((⟨[.occupied 0 0, .occupied 1 1], 2⟩ : HashTable Nat Nat).size ≤
        3 * (⟨[.occupied 0 0, .occupied 1 1], 2⟩ : HashTable Nat Nat).capacity / 4) := by
  decide

/-- Claim C1 (amended): for every sequence of inserts of distinct keys into
an initially empty hash map (in particular 100 inserts), every insert
succeeds; after the sequence the map's size equals the number of inserted
keys and every inserted key is findable; and after every prefix of the
sequence the invariant `size ≤ ⌊max_load_factor · capacity⌋ + 1` (stated as
`4·size ≤ 3·capacity + 4`, with `max_load_factor = 0.75`) holds — the
pre-insert load-factor check keeps the table strictly under 0.75 before
every placement, but the placement itself may raise the live load factor to
0.75 or beyond. -/
theorem C1_amended {κ ν : Type} [DecidableEq κ] (hash : κ → Nat) (val : κ → ν)
    (ks : List κ) (hnd : ks.Nodup) :
    ∃ t, insert_all hash val ks new_table = some t ∧
      t.size = ks.length ∧
      (∀ k, k ∈ ks → ∃ i v, find hash t k = some i ∧ t.bucket_at i = .occupied k v) ∧
      ∀ pre suf, ks = pre ++ suf →
        ∃ t1, insert_all hash val pre new_table = some t1 ∧
          4 * t1.size ≤ 3 * t1.capacity + 4 := by
  have hnpfresh : ∀ k : κ, k ∈ ks → ¬ key_present (new_table : HashTable κ ν) k := by
    rintro k _ ⟨i, hi, _⟩
    simp [new_table, capacity] at hi
  have hbfresh : 4 * (new_table : HashTable κ ν).size
      ≤ 3 * (new_table : HashTable κ ν).capacity + 4 := by
    simp [new_table, capacity]
  rcases insert_all_spec hash val ks new_table (inv_new_table hash) hnpfresh hnd
    hbfresh with ⟨r, hall, hinvr, hrsize, _, hrpres⟩
  refine ⟨r, hall, by simpa [new_table] using hrsize, ?_, ?_⟩
  · intro k hk
    have hpres : key_present r k := (hrpres k).mpr (Or.inl hk)
    rcases find_some_of_probe_ok hash r k (hinvr.2.2 k hpres) with ⟨i, hfind, v, hocc⟩
    exact ⟨i, v, hfind, hocc⟩
  · intro pre suf heq
    have hndpre : pre.Nodup := by
      rw [heq] at hnd
      exact hnd.of_append_left
    have hnppre : ∀ k : κ, k ∈ pre → ¬ key_present (new_table : HashTable κ ν) k := by
      rintro k _ ⟨i, hi, _⟩
      simp [new_table, capacity] at hi
    rcases insert_all_spec hash val pre new_table (inv_new_table hash) hnppre hndpre
      hbfresh with ⟨t1, h1, _, _, hb1, _⟩
    exact ⟨t1, h1, hb1⟩

/-- Witness for C1 (amended) at 100 distinct keys (identity hash). -/
theorem C1_witness :
    (List.range 100).Nodup ∧
      ∃ t, insert_all (fun a => a) (fun _ => (0 : Nat)) (List.range 100) new_table
          = some t ∧
        t.size = (List.range 100).length ∧
        (∀ k, k ∈ List.range 100 →
          ∃ i v, find (fun a => a) t k = some i ∧ t.bucket_at i = .occupied k v) ∧
        ∀ pre suf, List.range 100 = pre ++ suf →
          ∃ t1, insert_all (fun a => a) (fun _ => (0 : Nat)) pre new_table = some t1 ∧
            4 * t1.size ≤ 3 * t1.capacity + 4 :=
  ⟨List.nodup_range 100,
    C1_amended (fun a => a) (fun _ => (0 : Nat)) (List.range 100) (List.nodup_range 100)⟩

end Claims

namespace Memory

/-- `AllocationInfo` from `Memory.cpp`: byte count plus the interned tag
pointers; the `const char*` values and the line number are embedded as
`Nat`, `0` standing for null. -/
structure AllocationInfo where
  bytes_count : Nat
  filename : Nat
  function_sig : Nat
  line_number : Nat
  deriving DecidableEq

/-- `MemoryTrackerData`: the cumulative counters and the live-allocation
table keyed by address (`void*` embedded as `Nat`). -/
structure TrackerData where
  allocated : Nat
  allocations_count : Nat
  deallocated : Nat
  deallocations_count : Nat
  allocations_table : HashTable Nat AllocationInfo
  deriving DecidableEq

/-- The hash used by the tracker's `HashTable<void*, AllocationInfo>`:
`compute_hash(const void* const&)` is `(uint64_t)(uintptr_t)value`, the
identity on the address. -/
def ptr_hash : Nat → Nat := fun a => a

/-- The zero-initialised tracker produced by `Tracker::initialize`. -/
def tracker_init : TrackerData :=
  { allocated := 0, allocations_count := 0, deallocated := 0,
    deallocations_count := 0, allocations_table := HashTable.new_table }

/-- `Memory::Tracker::register_allocation`: bump `allocated` and
`allocations_count`, insert an anonymous record `{bytes_count, null, null,
0}` keyed by the address (the table's `insert` asserts the address is not
already live). -/
def register_allocation (tr : TrackerData) (memory_block bytes_count : Nat) :
    Option TrackerData :=
  (tr.allocations_table.insert ptr_hash memory_block
      ⟨bytes_count, 0, 0, 0⟩).map
    (fun tbl =>
      { allocated := tr.allocated + bytes_count,
        allocations_count := tr.allocations_count + 1,
        deallocated := tr.deallocated,
        deallocations_count := tr.deallocations_count,
        allocations_table := tbl })

/-- `Memory::Tracker::register_tagged_allocation`: as `register_allocation`
with the full source-location record. -/
def register_tagged_allocation (tr : TrackerData)
    (memory_block bytes_count filename function_sig line_number : Nat) :
    Option TrackerData :=
  (tr.allocations_table.insert ptr_hash memory_block
      ⟨bytes_count, filename, function_sig, line_number⟩).map
    (fun tbl =>
      { allocated := tr.allocated + bytes_count,
        allocations_count := tr.allocations_count + 1,
        deallocated := tr.deallocated,
        deallocations_count := tr.deallocations_count,
        allocations_table := tbl })

/-- `Memory::Tracker::register_deallocation`: look the record up with
`find_existing_index` (diverges if the address is not live), read it with
`at_index`, add its size to `deallocated`, bump `deallocations_count`, and
erase it with `remove_index`. -/
def register_deallocation (tr : TrackerData) (memory_block : Nat) :
    Option TrackerData :=
  (tr.allocations_table.find_existing_index ptr_hash memory_block).bind
    (fun i => (tr.allocations_table.at_index i).bind
      (fun allocation => (tr.allocations_table.remove_index i).map
        (fun tbl =>
          { allocated := tr.allocated,
            allocations_count := tr.allocations_count,
            deallocated := tr.deallocated + allocation.bytes_count,
            deallocations_count := tr.deallocations_count + 1,
            allocations_table := tbl })))

/-- Sum of the record sizes over the live allocation map. -/
def live_bytes (tr : TrackerData) : Nat :=
  HashTable.sum_val (fun info => info.bytes_count) tr.allocations_table

/-- Number of records in the live allocation map. -/
def live_records (tr : TrackerData) : Nat :=
  HashTable.occ_count tr.allocations_table

/-- Tracker states reachable by successful register/unregister calls: a
register succeeds only for an address that is not currently live (the
table's insert asserts this) and an unregister only for a previously
registered, still-live address (`find_existing_index` diverges otherwise),
which is exactly the interleaving discipline of the claim. -/
inductive tracker_reach : TrackerData → Prop where
  | init : tracker_reach tracker_init
  | reg {tr tr2 : TrackerData} {a n : Nat} :
      tracker_reach tr → register_allocation tr a n = some tr2 →
      tracker_reach tr2
  | reg_tagged {tr tr2 : TrackerData} {a n f fs ln : Nat} :
      tracker_reach tr → register_tagged_allocation tr a n f fs ln = some tr2 →
      tracker_reach tr2
  | dereg {tr tr2 : TrackerData} {a : Nat} :
      tracker_reach tr → register_deallocation tr a = some tr2 →
      tracker_reach tr2

theorem tracker_ledger {tr : TrackerData} (h : tracker_reach tr) :
    tr.allocated = tr.deallocated + live_bytes tr ∧
      tr.allocations_count = tr.deallocations_count + live_records tr := by
  induction h with
  | init => exact ⟨rfl, rfl⟩
  | @reg tr tr2 a n hr hreg ih =>
    rw [register_allocation, Option.map_eq_some'] at hreg
    rcases hreg with ⟨tbl, hins, htr2⟩
    rcases HashTable.insert_sums ptr_hash _ _ _ hins with ⟨hsum, hocc⟩
    subst htr2
    rcases ih with ⟨ih1, ih2⟩
    simp only [live_bytes, live_records] at ih1 ih2
    constructor
    · show tr.allocated + n = tr.deallocated
          + HashTable.sum_val (fun info => info.bytes_count) tbl
      have hs := hsum (fun info => info.bytes_count)
      have hb : ((⟨n, 0, 0, 0⟩ : AllocationInfo).bytes_count) = n := rfl
      rw [hb] at hs
      omega
    · show tr.allocations_count + 1 = tr.deallocations_count
          + HashTable.occ_count tbl
      omega
  | @reg_tagged tr tr2 a n f fs ln hr hreg ih =>
    rw [register_tagged_allocation, Option.map_eq_some'] at hreg
    rcases hreg with ⟨tbl, hins, htr2⟩
    rcases HashTable.insert_sums ptr_hash _ _ _ hins with ⟨hsum, hocc⟩
    subst htr2
    rcases ih with ⟨ih1, ih2⟩
    simp only [live_bytes, live_records] at ih1 ih2
    constructor
    · show tr.allocated + n = tr.deallocated
          + HashTable.sum_val (fun info => info.bytes_count) tbl
      have hs := hsum (fun info => info.bytes_count)
      have hb : ((⟨n, f, fs, ln⟩ : AllocationInfo).bytes_count) = n := rfl
      rw [hb] at hs
      omega
    · show tr.allocations_count + 1 = tr.deallocations_count
          + HashTable.occ_count tbl
      omega
  | @dereg tr tr2 a hr hdereg ih =>
    rw [register_deallocation, Option.bind_eq_some] at hdereg
    rcases hdereg with ⟨i, hfe, hdereg⟩
    rw [Option.bind_eq_some] at hdereg
    rcases hdereg with ⟨allocation, hat, hdereg⟩
    rw [Option.map_eq_some'] at hdereg
    rcases hdereg with ⟨tbl, hrem, htr2⟩
    rcases HashTable.fe_spec_top ptr_hash _ _ hfe with ⟨hi_lt, info0, hocc0⟩
    rw [HashTable.at_index, hocc0] at hat
    have heqa : info0 = allocation := Option.some.inj hat
    subst heqa
    rw [HashTable.remove_index, hocc0] at hrem
    cases Option.some.inj hrem
    subst htr2
    rcases ih with ⟨ih1, ih2⟩
    simp only [live_bytes, live_records] at ih1 ih2
    have hsum := HashTable.sum_val_delete (fun info => info.bytes_count) _ hi_lt hocc0
      (tr.allocations_table.size - 1)
    have hocc := HashTable.occ_count_delete _ hi_lt hocc0
      (tr.allocations_table.size - 1)
    constructor
    · show tr.allocated = (tr.deallocated + info0.bytes_count)
          + HashTable.sum_val (fun info => info.bytes_count)
            (HashTable.mk (tr.allocations_table.buckets.set i .deleted)
              (tr.allocations_table.size - 1))
      omega
    · show tr.allocations_count = (tr.deallocations_count + 1)
          + HashTable.occ_count
            (HashTable.mk (tr.allocations_table.buckets.set i .deleted)
              (tr.allocations_table.size - 1))
      omega

end Memory

namespace Claims

open Memory

/-- Claim C2: at every quiescent point of the allocation tracker (after any
interleaving of `register_allocation`/`register_tagged_allocation` and
`register_deallocation` calls in which every unregistered address was
previously registered and is live), `total_allocated − total_freed` equals
the sum of the sizes of the records in the live allocation map, and
`total_alloc_ops − total_free_ops` equals the number of live records. -/
theorem C2_tracker_ledger {tr : Memory.TrackerData} (h : tracker_reach tr) :
    tr.allocated - tr.deallocated = live_bytes tr ∧
      tr.allocations_count - tr.deallocations_count = live_records tr := by
  rcases tracker_ledger h with ⟨h1, h2⟩
  omega

/-- Witness for C2: register one 64-byte allocation at address 100. -/
theorem C2_witness :
    register_allocation tracker_init 100 64
        = some ⟨64, 1, 0, 0, ⟨[.occupied 100 ⟨64, 0, 0, 0⟩, .empty], 1⟩⟩ ∧
      ((⟨64, 1, 0, 0, ⟨[.occupied 100 ⟨64, 0, 0, 0⟩, .empty], 1⟩⟩ :
          Memory.TrackerData).allocated -
        (⟨64, 1, 0, 0, ⟨[.occupied 100 ⟨64, 0, 0, 0⟩, .empty], 1⟩⟩ :
          Memory.TrackerData).deallocated =
        live_bytes ⟨64, 1, 0, 0, ⟨[.occupied 100 ⟨64, 0, 0, 0⟩, .empty], 1⟩⟩ ∧
      (⟨64, 1, 0, 0, ⟨[.occupied 100 ⟨64, 0, 0, 0⟩, .empty], 1⟩⟩ :
          Memory.TrackerData).allocations_count -
        (⟨64, 1, 0, 0, ⟨[.occupied 100 ⟨64, 0, 0, 0⟩, .empty], 1⟩⟩ :
          Memory.TrackerData).deallocations_count =
        live_records ⟨64, 1, 0, 0, ⟨[.occupied 100 ⟨64, 0, 0, 0⟩, .empty], 1⟩⟩) := by
  have hstep : register_allocation tracker_init 100 64
      = some ⟨64, 1, 0, 0, ⟨[.occupied 100 ⟨64, 0, 0, 0⟩, .empty], 1⟩⟩ := by decide
  exact ⟨hstep, C2_tracker_ledger (tracker_reach.reg tracker_reach.init hstep)⟩

end Claims

namespace Memory

/-- `Memory::allocate_raw`: `nullptr` (embedded as address `0`) on a zero
byte count, otherwise the block the platform allocator returns (the
platform's answer is passed explicitly, as `Platform::allocate_memory` is an
out-of-scope OS shim). -/
def allocate_raw (bytes_count platform_addr : Nat) : Nat :=
  if bytes_count = 0 then 0 else platform_addr

/-- `Memory::allocate`: `nullptr` on a zero byte count, before anything is
registered; otherwise allocate raw and, when the tracker is active
(`tracker = some _`), register the block. -/
def allocate (tracker : Option TrackerData) (bytes_count platform_addr : Nat) :
    Option (Option TrackerData × Nat) :=
  if bytes_count = 0 then some (tracker, 0)
  else
    match tracker with
    | some tr =>
        (register_allocation tr (allocate_raw bytes_count platform_addr)
            bytes_count).map
          (fun tr2 => (some tr2, allocate_raw bytes_count platform_addr))
    | none => some (none, allocate_raw bytes_count platform_addr)

/-- `Memory::allocate_tagged`: as `allocate` with the full tag record. -/
def allocate_tagged (tracker : Option TrackerData)
    (bytes_count platform_addr filename function_sig line_number : Nat) :
    Option (Option TrackerData × Nat) :=
  if bytes_count = 0 then some (tracker, 0)
  else
    match tracker with
    | some tr =>
        (register_tagged_allocation tr (allocate_raw bytes_count platform_addr)
            bytes_count filename function_sig line_number).map
          (fun tr2 => (some tr2, allocate_raw bytes_count platform_addr))
    | none => some (none, allocate_raw bytes_count platform_addr)

end Memory

namespace Claims

/-- Claim C8: every allocation entry point of the memory facade
(`allocate_raw`, `allocate`, `allocate_tagged`) returns null (address `0`)
when called with a byte count of zero, and in that case the tracker state
is returned unchanged — nothing is registered. -/
theorem C8_zero_byte_alloc (tracker : Option Memory.TrackerData)
    (platform_addr filename function_sig line_number : Nat) :
    Memory.allocate_raw 0 platform_addr = 0 ∧
      Memory.allocate tracker 0 platform_addr = some (tracker, 0) ∧
      Memory.allocate_tagged tracker 0 platform_addr filename function_sig
          line_number = some (tracker, 0) :=
  ⟨rfl, rfl, rfl⟩

end Claims

/-- `HC::Array<T>`: `data` is the list of constructed elements `[0, m_size)`
(so `m_size = data.length`) and `capacity` is `m_capacity`; the raw storage
`[m_size, m_capacity)` holds no constructed elements and carries no
observable data. -/
structure Array (α : Type) where
  data : List α
  capacity : Nat
  deriving DecidableEq

namespace Array

variable {α : Type}

/-- `m_size`: the number of constructed elements. -/
def size (a : Array α) : Nat := a.data.length

/-- `Array::Array()`: null buffer, zero size and capacity. -/
def new_array : Array α := { data := [], capacity := 0 }

/-- `Array::should_grow`: `m_size + required_additional_size > m_capacity`. -/
def should_grow (a : Array α) (required_additional_size : Nat) : Bool :=
  decide (a.size + required_additional_size > a.capacity)

/-- `Array::calculate_growth()` (no-argument overload):
`m_capacity + m_capacity / 2 + 1`. -/
def calculate_growth (a : Array α) : Nat := a.capacity + a.capacity / 2 + 1

/-- `Array::calculate_growth(required_additional_size)`: the natural growth
when it exceeds the required capacity `m_size + required_additional_size`,
otherwise exactly the required capacity. -/
def calculate_growth_for (a : Array α) (required_additional_size : Nat) : Nat :=
  if a.calculate_growth > a.size + required_additional_size then a.calculate_growth
  else a.size + required_additional_size

/-- `Array::re_allocate`: allocate `new_capacity` slots, destroy the surplus
tail when `m_size > new_capacity`, move the remaining elements over, free
the old buffer.  On the element list this is `take new_capacity`. -/
def re_allocate (a : Array α) (new_capacity : Nat) : Array α :=
  { data := a.data.take new_capacity, capacity := new_capacity }

/-- `Array::add(element)`: reallocate to the natural growth when full, then
copy-construct the element at the end (`m_size++`). -/
def add (a : Array α) (element : α) : Array α :=
  let a2 := if a.should_grow 1 then a.re_allocate a.calculate_growth else a
  { data := a2.data ++ [element], capacity := a2.capacity }

/-- `Array::clear`: destroy all elements, `m_size = 0`, keep the capacity. -/
def clear (a : Array α) : Array α := { data := [], capacity := a.capacity }

/-- Modelled from the spec: `Array::pop` is missing from the sources under
`src/` — only its call site `s_windows.pop()` (WindowsWindow.cpp:216)
remains.  Spec §4.F: `pop()`, `pop(k)`: require `size ≥ k`; destroy and
remove from the end.  Popping one element requires a non-empty array and
destroys and removes the last element. -/
def pop (a : Array α) : Option (Array α) :=
  if 1 ≤ a.size then some { data := a.data.dropLast, capacity := a.capacity }
  else none

/-- One `add(x); pop()` round trip. -/
def add_pop (x : α) (a : Array α) : Option (Array α) := (a.add x).pop

/-- `n` consecutive `add(x); pop()` round trips. -/
def add_pop_n (x : α) : Nat → Array α → Option (Array α)
  | 0, a => some a
  | n+1, a => (add_pop x a).bind (add_pop_n x n)

theorem add_pop_step (a : Array α) (x : α) (h : a.size ≤ a.capacity) :
    ∃ r, add_pop x a = some r ∧ r.data = a.data ∧ a.capacity ≤ r.capacity := by
  by_cases hg : a.should_grow 1 = true
  · have hle : a.data.length ≤ a.calculate_growth := by
      simp only [calculate_growth]
      have : a.data.length ≤ a.capacity := h
      omega
    refine ⟨{ data := a.data, capacity := a.calculate_growth }, ?_, rfl, ?_⟩
    · rw [add_pop, add, pop]
      simp only [hg, if_pos rfl, re_allocate, List.take_of_length_le hle]
      rw [if_pos (by simp [size])]
      simp [List.dropLast_concat]
    · simp only [calculate_growth]
      omega
  · refine ⟨{ data := a.data, capacity := a.capacity }, ?_, rfl, Nat.le_refl _⟩
    rw [add_pop, add, pop]
    simp only [hg, if_neg (by simp [hg] : ¬ a.should_grow 1 = true)]
    rw [if_pos (by simp [size])]
    simp [List.dropLast_concat]

end Array

namespace Claims

/-- Claim C4: when a dynamic array must grow and no larger size is
explicitly required, the new capacity equals `capacity + capacity/2 + 1`
(integer division); when the required additional element count exceeds that,
the capacity becomes exactly the required size; and starting from an empty
array, five successive `add(1)` calls produce size 5, elements
`[1,1,1,1,1]`, capacity ≥ 5, with the capacity sequence 0→1→2→4→4→7 (the
strictly increasing values being 0→1→2→4→7). -/
theorem C4_array_growth :
    (∀ (α : Type) (a : Array α) (x : α), a.size = a.capacity →
      (a.add x).capacity = a.capacity + a.capacity / 2 + 1) ∧
    (∀ (α : Type) (a : Array α) (req : Nat),
      a.calculate_growth < a.size + req →
      a.calculate_growth_for req = a.size + req) ∧
    ((List.range 6).map
        (fun n => ((List.replicate n (1 : Nat)).foldl Array.add
          Array.new_array).capacity))
      = [0, 1, 2, 4, 4, 7] ∧
    ((List.replicate 5 (1 : Nat)).foldl Array.add Array.new_array).size = 5 ∧
    ((List.replicate 5 (1 : Nat)).foldl Array.add Array.new_array).data
      = List.replicate 5 1 ∧
    5 ≤ ((List.replicate 5 (1 : Nat)).foldl Array.add Array.new_array).capacity := by
  refine ⟨?_, ?_, by decide, by decide, by decide, by decide⟩
  · intro α a x h
    have hg : a.should_grow 1 = true := by
      simp only [Array.should_grow, decide_eq_true_eq]
      omega
    simp [Array.add, hg, Array.re_allocate, Array.calculate_growth]
  · intro α a req hlt
    rw [Array.calculate_growth_for, if_neg (by omega)]

/-- Witness for C4's conditional parts at concrete arrays. -/
theorem C4_witness :
    ((⟨[5], 1⟩ : Array Nat).size = (⟨[5], 1⟩ : Array Nat).capacity ∧
      ((⟨[5], 1⟩ : Array Nat).add 9).capacity = 2) ∧
    ((⟨[], 0⟩ : Array Nat).calculate_growth < (⟨[], 0⟩ : Array Nat).size + 5 ∧
      (⟨[], 0⟩ : Array Nat).calculate_growth_for 5 = 5) := by
  constructor
  · refine ⟨by decide, ?_⟩
    have h := C4_array_growth.1 Nat (⟨[5], 1⟩ : Array Nat) 9 (by decide)
    simpa using h
  · refine ⟨by decide, ?_⟩
    have h := C4_array_growth.2.1 Nat (⟨[], 0⟩ : Array Nat) 5 (by decide)
    simpa using h

/-- Claim C9: for every dynamic array (with the structural `size ≤ capacity`
invariant) and every value `x`, `add(x)` followed by `pop()` restores the
array's size — indeed the whole element sequence — and repeating the pair
`n` times is observably a no-op for the size; `pop()` requires a non-empty
array (it is `none` on an empty one) and removes the last element. -/
theorem C9_add_pop {α : Type} (a : Array α) (x : α) (h : a.size ≤ a.capacity) :
    (∀ n, ∃ r, Array.add_pop_n x n a = some r ∧
      r.size = a.size ∧ r.data = a.data) ∧
    (∀ b : Array α, b.size = 0 → b.pop = none) := by
  constructor
  · intro n
    induction n generalizing a with
    | zero => exact ⟨a, rfl, rfl, rfl⟩
    | succ m ih =>
      rcases Array.add_pop_step a x h with ⟨r1, hstep, hdata, hcap⟩
      have hsz : r1.size = a.size := by simp [Array.size, hdata]
      have hinv : r1.size ≤ r1.capacity := by
        rw [hsz]
        omega
      rcases ih r1 hinv with ⟨r, hrest, hrsz, hrdata⟩
      refine ⟨r, ?_, by rw [hrsz, hsz], by rw [hrdata, hdata]⟩
      rw [Array.add_pop_n, hstep]
      exact hrest
  · intro b hb
    rw [Array.pop, if_neg (by omega)]

/-- Witness for C9 at a concrete array. -/
theorem C9_witness :
    (⟨[1, 2], 2⟩ : Array Nat).size ≤ (⟨[1, 2], 2⟩ : Array Nat).capacity ∧
      ((∀ n, ∃ r, Array.add_pop_n 7 n (⟨[1, 2], 2⟩ : Array Nat) = some r ∧
        r.size = (⟨[1, 2], 2⟩ : Array Nat).size ∧
        r.data = (⟨[1, 2], 2⟩ : Array Nat).data) ∧
      (∀ b : Array Nat, b.size = 0 → b.pop = none)) :=
  ⟨by decide, C9_add_pop (⟨[1, 2], 2⟩ : Array Nat) 7 (by decide)⟩

end Claims

/-- Buffer-identity view of `HC::Array<T>` for the move-assignment claim:
`buf_id` stands for the `m_data` pointer value, so buffer hand-over and
(non-)freeing are observable. -/
structure BufArray (α : Type) where
  buf_id : Nat
  data : List α
  capacity : Nat
  deriving DecidableEq

namespace BufArray

variable {α : Type}

/-- `m_size` of the buffer view. -/
def size (x : BufArray α) : Nat := x.data.length

/-- `Array::clear` on the buffer view: destroy the elements (returned as the
second component for observation), keep the buffer and its capacity. -/
def clear_destroying (x : BufArray α) : BufArray α × List α :=
  ({ buf_id := x.buf_id, data := [], capacity := x.capacity }, x.data)

/-- `Array::operator=(Array&&)` (move assignment, `Array.h:372-389`):
`clear()` destroys this array's elements; then `m_data` and `m_capacity`
are swapped with the source through `temp_data`/`temp_capacity`, `m_size`
is taken from the source, and the source's `m_size` is set to 0.  Returns
`(new this, new source, destroyed elements, freed buffer ids)`; the
operator calls the allocator's `free` nowhere, so the freed list is empty. -/
def move_assign (b a : BufArray α) :
    BufArray α × BufArray α × List α × List Nat :=
  let cleared := b.clear_destroying
  ({ buf_id := a.buf_id, data := a.data, capacity := a.capacity },
   { buf_id := cleared.1.buf_id, data := [], capacity := cleared.1.capacity },
   cleared.2, [])

end BufArray

namespace Claims

end Claims

/-- `String::SSOSize = sizeof(char*)` on the 64-bit targets the engine
builds for. -/
def sso_size : Nat := 8

/-- `HC::String`: `bytes_count` is `m_bytes_count` (terminating NUL
included).  The union of `m_heap_bytes` and the inline `m_sso_bytes` is
split into two fields; `is_using_sso`, a function of `bytes_count` alone,
selects the live one exactly as in the source.  `sso_bytes` models the
written prefix of the 8-byte inline slot (residual bytes past the
terminating NUL are unobservable); `heap_bytes` models the owned heap
buffer's contents. -/
structure String where
  bytes_count : Nat
  sso_bytes : List Nat
  heap_bytes : List Nat
  deriving DecidableEq

namespace String

/-- `String::is_using_sso`: `m_bytes_count <= SSOSize`. -/
def is_using_sso (s : String) : Bool := decide (s.bytes_count ≤ sso_size)

/-- `String::bytes`: the live buffer selected by `is_using_sso`. -/
def bytes (s : String) : List Nat :=
  if s.is_using_sso then s.sso_bytes else s.heap_bytes

/-- `String::span`: `Span<const char>(bytes(), bytes_count())` — note the
count passed is `m_bytes_count`, which includes the terminating NUL
(`Span<char>::bytes_count()` returns `m_count * sizeof(char) = m_count`). -/
def span (s : String) : List Nat := s.bytes.take s.bytes_count

/-- `String::String()`: `m_bytes_count = 1` and a NUL in the SSO slot. -/
def empty_string : String :=
  { bytes_count := 1, sso_bytes := [0], heap_bytes := [] }

/-- The number of heap frees `String::release_memory_check` performs: one
when the heap buffer is live, none under SSO.  The fields are unchanged
(the freed pointer dangles until overwritten). -/
def release_memory_check_frees (s : String) : Nat :=
  if s.is_using_sso then 0 else 1

/-- `String::allocate(new_bytes_count)`: asserts `new_bytes_count !=
m_bytes_count && new_bytes_count > SSOSize` (true at both call sites),
releases the heap buffer if one is live, allocates a fresh buffer of
exactly `new_bytes_count` bytes (uninitialised; zero placeholder, every
caller overwrites it), sets `m_bytes_count`.  Second component: frees
performed. -/
def allocate (s : String) (new_bytes_count : Nat) : String × Nat :=
  ({ bytes_count := new_bytes_count, sso_bytes := s.sso_bytes,
     heap_bytes := List.replicate new_bytes_count 0 },
   release_memory_check_frees s)

/-- `String::construct_from_span` (fresh object, `m_bytes_count = 0`):
inline copy when `chars_span.bytes_count() < SSOSize`, else a heap buffer of
exactly `count + 1` bytes; the NUL is written at `m_bytes_count - 1`. -/
def construct_from_span (chars_span : List Nat) : String :=
  if chars_span.length < sso_size then
    { bytes_count := chars_span.length + 1, sso_bytes := chars_span ++ [0],
      heap_bytes := [] }
  else
    { bytes_count := chars_span.length + 1, sso_bytes := [],
      heap_bytes := chars_span ++ [0] }

/-- `String::assign_from_span`: the inline branch releases a live heap
buffer then copies into the SSO slot; the heap branch reallocates only when
`m_bytes_count != chars_span.bytes_count() + 1` (the heap buffer must be
exactly `m_bytes_count` bytes — no over-allocation), then copies the span
and writes the NUL at position `m_bytes_count - 1`.  Returns
`(string, frees, allocations)`. -/
def assign_from_span (s : String) (chars_span : List Nat) : String × Nat × Nat :=
  if chars_span.length < sso_size then
    ({ bytes_count := chars_span.length + 1, sso_bytes := chars_span ++ [0],
       heap_bytes := s.heap_bytes },
     release_memory_check_frees s, 0)
  else
    if s.bytes_count ≠ chars_span.length + 1 then
      ({ bytes_count := (s.allocate (chars_span.length + 1)).1.bytes_count,
         sso_bytes := (s.allocate (chars_span.length + 1)).1.sso_bytes,
         heap_bytes := chars_span ++ [0] },
       (s.allocate (chars_span.length + 1)).2, 1)
    else
      ({ bytes_count := s.bytes_count, sso_bytes := s.sso_bytes,
         heap_bytes := chars_span ++ [0] }, 0, 0)

/-- `String::operator=(const String&)`: `assign_from_span(other.span())` —
the span hands over all `m_bytes_count` bytes, terminating NUL included. -/
def assign_string (s t : String) : String × Nat × Nat :=
  s.assign_from_span t.span

end String

namespace Claims

open String

/-- Claim C5 evaluated at a failing input (`S = String(); T = "ab"`;
`S = T; S = T`): `String::operator=(const String&)` passes `other.span()`,
whose count is `m_bytes_count` *including* the terminating NUL, into
`assign_from_span`, which treats the count as NUL-exclusive and adds one
again.  So after either assignment `S.bytes_count = T.bytes_count + 1 = 4`
with a second NUL appended — the pair of assignments is idempotent (both
produce the same state) but that state is not bitwise-equal to `T`,
contradicting the claim and the convention documented on
`String(Span<const char>)` ("The bytes_count of the span shouldn't include
the null-termination byte/character"), which `operator=(const char*)`
respects via `utf8_string_bytes_count`. -/
theorem C5_code_bug_eval :
    (construct_from_span [97, 98]).bytes_count = 3 ∧
      (assign_string empty_string (construct_from_span [97, 98])).1.bytes_count
        = 4 ∧
      (assign_string (assign_string empty_string (construct_from_span [97, 98])).1
          (construct_from_span [97, 98])).1
        = (assign_string empty_string (construct_from_span [97, 98])).1 ∧
      ¬ ((assign_string empty_string (construct_from_span [97, 98])).1.bytes_count
          = (construct_from_span [97, 98]).bytes_count) := by
  decide

/-- Claim C6: a string whose `bytes_count` (NUL included) equals
`pointer_size` stores its content in the inline SSO buffer, and a string
whose `bytes_count` equals `pointer_size + 1` stores it in a heap buffer of
exactly `bytes_count` bytes; an assignment that crosses this boundary frees
the heap buffer when moving to inline storage, and frees nothing (while
allocating the new heap buffer) when moving from inline to heap storage. -/
theorem C6_sso_boundary :
    (∀ (s : String) (chars_span : List Nat), chars_span.length = sso_size - 1 →
      (s.assign_from_span chars_span).1.bytes_count = sso_size ∧
        (s.assign_from_span chars_span).1.is_using_sso = true ∧
        (s.assign_from_span chars_span).1.span = chars_span ++ [0]) ∧
    (∀ (s : String) (chars_span : List Nat), chars_span.length = sso_size →
      (s.assign_from_span chars_span).1.bytes_count = sso_size + 1 ∧
        (s.assign_from_span chars_span).1.is_using_sso = false ∧
        (s.assign_from_span chars_span).1.heap_bytes.length
          = (s.assign_from_span chars_span).1.bytes_count) ∧
    (∀ (s : String) (chars_span : List Nat), s.is_using_sso = false →
      chars_span.length < sso_size →
      (s.assign_from_span chars_span).2.1 = 1) ∧
    (∀ (s : String) (chars_span : List Nat), s.is_using_sso = true →
      sso_size ≤ chars_span.length →
      (s.assign_from_span chars_span).2.1 = 0 ∧
        (s.assign_from_span chars_span).2.2 = 1) := by
  refine ⟨?_, ?_, ?_, ?_⟩
  · intro s chars_span hlen
    have hlt : chars_span.length < sso_size := by rw [hlen]; decide
    rw [assign_from_span, if_pos hlt, hlen]
    refine ⟨?_, ?_, ?_⟩
    · show sso_size - 1 + 1 = sso_size
      decide
    · simp only [is_using_sso, decide_eq_true_eq]
      show sso_size - 1 + 1 ≤ sso_size
      decide
    · rw [span, bytes]
      have hsso : is_using_sso
          ⟨sso_size - 1 + 1, chars_span ++ [0], s.heap_bytes⟩ = true := by
        simp only [is_using_sso, decide_eq_true_eq]
        show sso_size - 1 + 1 ≤ sso_size
        decide
      rw [if_pos hsso]
      show (chars_span ++ [0]).take (sso_size - 1 + 1) = chars_span ++ [0]
      apply List.take_of_length_le
      simp [hlen]
  · intro s chars_span hlen
    have hnlt : ¬ chars_span.length < sso_size := by omega
    rw [assign_from_span, if_neg hnlt]
    by_cases hne : s.bytes_count ≠ chars_span.length + 1
    · rw [if_pos hne]
      refine ⟨?_, ?_, ?_⟩
      · show (s.allocate (chars_span.length + 1)).1.bytes_count = sso_size + 1
        rw [allocate]
        simp [hlen]
      · rw [is_using_sso]
        show (decide ((s.allocate (chars_span.length + 1)).1.bytes_count ≤ sso_size)) = false
        rw [allocate]
        simp [hlen, sso_size]
      · show (chars_span ++ [0]).length = (s.allocate (chars_span.length + 1)).1.bytes_count
        rw [allocate]
        simp
    · rw [if_neg hne]
      push_neg at hne
      refine ⟨by rw [hne, hlen], ?_, by simp [hne]⟩
      rw [is_using_sso]
      show (decide (s.bytes_count ≤ sso_size)) = false
      rw [hne, hlen]
      simp [sso_size]
  · intro s chars_span hheap hlt
    rw [assign_from_span, if_pos hlt]
    show release_memory_check_frees s = 1
    rw [release_memory_check_frees, if_neg (by rw [hheap]; exact Bool.false_ne_true)]
  · intro s chars_span hsso hge
    have hnlt : ¬ chars_span.length < sso_size := by omega
    have hne : s.bytes_count ≠ chars_span.length + 1 := by
      rw [is_using_sso, decide_eq_true_eq] at hsso
      omega
    rw [assign_from_span, if_neg hnlt, if_pos hne]
    refine ⟨?_, rfl⟩
    show (s.allocate (chars_span.length + 1)).2 = 0
    rw [allocate]
    show release_memory_check_frees s = 0
    rw [release_memory_check_frees, if_pos hsso]

/-- Witness for C6 at concrete strings and spans: an assignment of a
7-byte payload lands inline with `bytes_count = 8`; an 8-byte payload lands
on the heap with a 9-byte buffer; a heap string (`bytes_count = 9`)
assigned a 1-byte payload frees its buffer; the empty (inline) string
assigned an 8-byte payload frees nothing and allocates once. -/
theorem C6_witness :
    ((List.replicate 7 (97 : Nat)).length = sso_size - 1 ∧
      (empty_string.assign_from_span (List.replicate 7 97)).1.bytes_count
          = sso_size ∧
        (empty_string.assign_from_span (List.replicate 7 97)).1.is_using_sso
          = true ∧
        (empty_string.assign_from_span (List.replicate 7 97)).1.span
          = List.replicate 7 97 ++ [0]) ∧
    ((List.replicate 8 (97 : Nat)).length = sso_size ∧
      (empty_string.assign_from_span (List.replicate 8 97)).1.bytes_count
          = sso_size + 1 ∧
        (empty_string.assign_from_span (List.replicate 8 97)).1.is_using_sso
          = false ∧
        (empty_string.assign_from_span (List.replicate 8 97)).1.heap_bytes.length
          = (empty_string.assign_from_span (List.replicate 8 97)).1.bytes_count) ∧
    ((construct_from_span (List.replicate 8 97)).is_using_sso = false ∧
      ([97] : List Nat).length < sso_size ∧
      ((construct_from_span (List.replicate 8 97)).assign_from_span [97]).2.1
        = 1) ∧
    (empty_string.is_using_sso = true ∧
      sso_size ≤ (List.replicate 8 (97 : Nat)).length ∧
      (empty_string.assign_from_span (List.replicate 8 97)).2.1 = 0 ∧
        (empty_string.assign_from_span (List.replicate 8 97)).2.2 = 1) := by
  refine ⟨⟨by decide, C6_sso_boundary.1 empty_string (List.replicate 7 97) (by decide)⟩,
    ⟨by decide, C6_sso_boundary.2.1 empty_string (List.replicate 8 97) (by decide)⟩,
    ⟨by decide, by decide,
      C6_sso_boundary.2.2.1 (construct_from_span (List.replicate 8 97)) [97]
        (by decide) (by decide)⟩,
    ⟨by decide, by decide,
      C6_sso_boundary.2.2.2 empty_string (List.replicate 8 97) (by decide)
        (by decide)⟩⟩

end Claims

namespace Claims

/-- Claim C10: after the array move-assignment `B = move(A)`, `B` holds
`A`'s former buffer, size and capacity; every element `B` held before has
been destroyed; and `A` is left holding `B`'s former buffer with size 0 and
`B`'s former capacity — its capacity is not reset to 0 and its buffer is
not freed. -/
theorem C10_move_assign {α : Type} (a b : BufArray α) :
    ((BufArray.move_assign b a).1.buf_id = a.buf_id ∧
      (BufArray.move_assign b a).1.data = a.data ∧
      (BufArray.move_assign b a).1.capacity = a.capacity) ∧
    (BufArray.move_assign b a).2.2.1 = b.data ∧
    ((BufArray.move_assign b a).2.1.buf_id = b.buf_id ∧
      (BufArray.move_assign b a).2.1.size = 0 ∧
      (BufArray.move_assign b a).2.1.capacity = b.capacity) ∧
    (BufArray.move_assign b a).2.2.2 = [] :=
  ⟨⟨rfl, rfl, rfl⟩, rfl, ⟨rfl, rfl, rfl⟩, rfl⟩

end Claims

end Hiccup
